import Mathlib

/-!
Verification development for the Tabyst tab-suggestion engine.

The JavaScript sources are shallowly embedded: JS numbers are modelled as
exact rationals (ℚ) and millisecond timestamps as integers (ℤ); a JS `Map`
is modelled as an association list with unique keys, preserving insertion
order; transcendental helpers (`Math.log`, `Math.sqrt`) are abstracted as
function parameters `lg`/`sqr`, so every statement quantifies over them and
holds in particular for the real logarithm and square root.
-/

namespace Tabyst

/-! ## Association-list model of a JavaScript Map

A JS `Map` keeps insertion order and unique keys; `set` overwrites an
existing key in place, otherwise appends; `delete` removes the entry.
-/

/-- Entry list of a JS Map: keys in insertion order, unique in well-formed maps. -/
abbrev JsMap (α β : Type) : Type := List (α × β)

/-- Map.get: value at the first (in a well-formed map: only) matching key. -/
def mget [DecidableEq α] (m : JsMap α β) (k : α) : Option β :=
  match m with
  | [] => none
  | (k', v') :: rest => if k' = k then some v' else mget rest k

/-- Map.set: overwrite the entry in place if the key is present, else append. -/
def mset [DecidableEq α] (m : JsMap α β) (k : α) (v : β) : JsMap α β :=
  match m with
  | [] => [(k, v)]
  | (k', v') :: rest => if k' = k then (k, v) :: rest else (k', v') :: mset rest k v

/-- Map.delete: drop the first entry with the given key. -/
def mdelete [DecidableEq α] (m : JsMap α β) (k : α) : JsMap α β :=
  match m with
  | [] => []
  | (k', v') :: rest => if k' = k then rest else (k', v') :: mdelete rest k

/-- new Map(entries): fold Map.set over an entry list. -/
def mapOfList [DecidableEq α] (entries : List (α × β)) : JsMap α β :=
  entries.foldl (fun m p => mset m p.1 p.2) []

/-- Keys of a map, in insertion order. -/
def mkeys (m : JsMap α β) : List α := m.map Prod.fst

/-- Well-formed JS Map: no duplicate keys (every map built via Map.set is). -/
def MapWF (m : JsMap α β) : Prop := (mkeys m).Nodup

instance [DecidableEq α] (m : JsMap α β) : Decidable (MapWF m) := by
  unfold MapWF; infer_instance

/-- Set iteration order / first-occurrence deduplication, as JS `new Set(list)`. -/
def dedupFirstAux [DecidableEq α] (seen : List α) : List α → List α
  | [] => []
  | a :: rest =>
    if a ∈ seen then dedupFirstAux seen rest
    else a :: dedupFirstAux (a :: seen) rest

/-- JS `[...new Set(list)]`: unique elements in first-occurrence order. -/
def dedupFirst [DecidableEq α] (l : List α) : List α := dedupFirstAux [] l

/-! ## tfidf.js — the TF-IDF / BM25 text index -/

/-- Character class of the JS regex `\w` (word character). -/
def isWordChar (c : Char) : Bool := c.isAlphanum || c = '_'

/-- Character-level lowercasing, as JS `toLowerCase` on the ASCII strings
handled here. -/
def jsToLower (s : String) : String := String.mk (s.toList.map Char.toLower)

/-- Split a character list at every separator character, keeping empty
segments, exactly as JS `String.prototype.split` does; the empty segments
that a split on the regex `\s+` would merge are all removed later by the
token length filter, so the two agree. -/
def splitChars (p : Char → Bool) : List Char → List (List Char)
  | [] => [[]]
  | c :: rest =>
    if p c then [] :: splitChars p rest
    else
      match splitChars p rest with
      | [] => [[c]]
      | t :: ts => (c :: t) :: ts

/-- Token trimming step of tfidf.js `tokenize`:
`word.replace(/^[-']+|[-']+$/g, '')` (strip leading/trailing hyphens and
apostrophes). -/
def trimHyphenApos (w : List Char) : String :=
  let l := w.dropWhile (fun c => c = '-' || c = '\'')
  String.mk ((l.reverse.dropWhile (fun c => c = '-' || c = '\'')).reverse)

/-- tfidf.js `tokenize(text)`: lowercase, replace every character outside
`[\w\s'-]` by a space, split on whitespace, trim edge hyphens/apostrophes,
keep tokens longer than 2 characters that are not purely numeric.
The source first applies Unicode NFD normalization and strips combining
marks, which is the identity on the ASCII strings handled here. -/
def tokenize (text : String) : List String :=
  let lowered := text.toList.map Char.toLower
  let replaced := lowered.map (fun c =>
    if isWordChar c || c.isWhitespace || c = '\'' || c = '-' then c else ' ')
  ((splitChars Char.isWhitespace replaced).map trimHyphenApos).filter
    (fun w => w.length > 2 && !(w.toList.all Char.isDigit))

/-- Metadata record carried through the index for each document. -/
structure TFMeta where
  domain : String
  title : String
  url : String
deriving DecidableEq, Repr

/-- Entry of the `documents` array of tfidf.js. -/
structure TFDocEntry where
  id : Nat
  text : String
  metadata : TFMeta
deriving DecidableEq, Repr

/-- Entry of the `termFreqs` array of tfidf.js (the per-document record). -/
structure TFRecord where
  id : Nat
  termFreq : JsMap String Nat
  terms : List String
  uniqueTerms : Nat
  totalTerms : Nat
  metadata : TFMeta
deriving DecidableEq, Repr

/-- The whole mutable state of a tfidf.js `TFIDF` instance. -/
structure TFIDFState where
  documents : List TFDocEntry
  documentFreq : JsMap String Nat
  termFreqs : List TFRecord
  globalTermFreq : JsMap String Nat
  totalTermCount : Nat
deriving DecidableEq, Repr

/-- The `new TFIDF()` constructor state. -/
def TFIDFState.empty : TFIDFState :=
  { documents := [], documentFreq := [], termFreqs := [], globalTermFreq := [],
    totalTermCount := 0 }

/-- tfidf.js `isStopWord(term)`: with fewer than 3 documents nothing is a
stop word; otherwise a term is a stop word when its document frequency
exceeds 40% of the corpus. -/
def isStopWord (st : TFIDFState) (term : String) : Bool :=
  let numDocs := st.documents.length
  if numDocs < 3 then false
  else
    let df := (mget st.documentFreq term).getD 0
    decide (10 * df > 4 * numDocs)

/-- tfidf.js `filterTerms(terms)`: drop terms shorter than 3 or longer than
30 characters, statistical stop words, and (once the corpus exceeds 10
documents) terms present in exactly one document. -/
def filterTerms (st : TFIDFState) (terms : List String) : List String :=
  let numDocs := st.documents.length
  terms.filter (fun term =>
    if term.length < 3 || term.length > 30 then false
    else if isStopWord st term then false
    else if numDocs > 10 && (mget st.documentFreq term).getD 0 == 1 then false
    else true)

/-- tfidf.js `extractNGrams(tokens, n)`: contiguous n-token windows joined
with the underscore separator. -/
def extractNGrams (tokens : List String) (n : Nat) : List String :=
  if n ≤ tokens.length then
    (List.range (tokens.length - n + 1)).map (fun i =>
      String.intercalate "_" ((tokens.drop i).take n))
  else []

/-- One `map.set(term, (map.get(term) || 0) + 1)` step (shared by the
global-term-frequency, per-document term-frequency and document-frequency
updates of `addDocument`). -/
def bumpCount [DecidableEq α] (m : JsMap α Nat) (t : α) : JsMap α Nat :=
  mset m t ((mget m t).getD 0 + 1)

/-- One decrement step of `removeDocument`: delete the entry when its count
would reach zero, otherwise decrement it. When the term is absent the JS
source would store NaN (`undefined - 1`); that branch is unreachable from
the well-formed states considered here, where every removed document's
terms are present in the document-frequency map. -/
def dropCount [DecidableEq α] (m : JsMap α Nat) (t : α) : JsMap α Nat :=
  match mget m t with
  | none => mset m t 0
  | some freq => if freq ≤ 1 then mdelete m t else mset m t (freq - 1)

/-- tfidf.js `addDocument(text, id, metadata)`: tokenize; bump the global
term-frequency counter and total term count for every raw token; filter the
tokens against current corpus statistics; append bigrams and trigrams of
the filtered tokens; record the per-document term-frequency map; bump the
document frequency of every unique term once; push the document. -/
def addDocument (st : TFIDFState) (text : String) (id : Nat) (metadata : TFMeta) :
    TFIDFState :=
  let tokens := tokenize text
  let globalTermFreq := tokens.foldl bumpCount st.globalTermFreq
  let totalTermCount := st.totalTermCount + tokens.length
  let filteredTokens := filterTerms st tokens
  let bigrams := extractNGrams filteredTokens 2
  let trigrams := extractNGrams filteredTokens 3
  let allTerms := filteredTokens ++ bigrams ++ trigrams
  let termFreq := allTerms.foldl bumpCount []
  let uniqueTerms := dedupFirst allTerms
  let documentFreq := uniqueTerms.foldl bumpCount st.documentFreq
  { documents := st.documents ++ [⟨id, text, metadata⟩]
    documentFreq := documentFreq
    termFreqs := st.termFreqs ++
      [⟨id, termFreq, allTerms, uniqueTerms.length, allTerms.length, metadata⟩]
    globalTermFreq := globalTermFreq
    totalTermCount := totalTermCount }

/-- The full term list (filtered unigrams plus bigrams plus trigrams) that
`addDocument` records for a document with the given text, against the
pre-add corpus statistics of `st`. -/
def addedTerms (st : TFIDFState) (text : String) : List String :=
  let filteredTokens := filterTerms st (tokenize text)
  filteredTokens ++ extractNGrams filteredTokens 2 ++ extractNGrams filteredTokens 3

/-- tfidf.js `removeDocument(id)`: locate the document; decrement the
document frequency of each of its unique terms (deleting entries that
reach zero); splice the document and its term-frequency record out. The
global term-frequency counter and total term count are not touched. If
the id is unknown the state is returned unchanged. -/
def removeDocument (st : TFIDFState) (id : Nat) : TFIDFState :=
  match st.documents.findIdx? (fun d => d.id == id) with
  | none => st
  | some index =>
    match st.termFreqs[index]? with
    | none => st
    | some doc =>
      let documentFreq := (dedupFirst doc.terms).foldl dropCount st.documentFreq
      { st with documents := st.documents.eraseIdx index
                termFreqs := st.termFreqs.eraseIdx index
                documentFreq := documentFreq }

/-- BM25 contribution of one filtered query term against a located document
record (body of the `forEach` accumulation in tfidf.js `bm25`). The
abstract `lg` stands for `Math.log`. -/
def bm25Term (lg : ℚ → ℚ) (st : TFIDFState) (doc : TFRecord)
    (avgDocLength k1 b : ℚ) (term : String) : ℚ :=
  let termFreqInDoc := (mget doc.termFreq term).getD 0
  if termFreqInDoc = 0 then 0
  else
    let numDocs := st.documents.length
    let df0 := (mget st.documentFreq term).getD 0
    let df : ℚ := if df0 = 0 then 1 else (df0 : ℚ)
    let idf := lg (((numDocs : ℚ) - df + 0.5) / (df + 0.5) + 1)
    let numerator := (termFreqInDoc : ℚ) * (k1 + 1)
    let denominator := (termFreqInDoc : ℚ) +
      k1 * (1 - b + b * ((doc.totalTerms : ℚ) / avgDocLength))
    idf * (numerator / denominator)

/-- tfidf.js `bm25(queryText, documentId, k1 = 1.5, b = 0.75)`: tokenize and
filter the query, return 0 for an unknown document or an empty corpus, and
otherwise accumulate the per-term BM25 contributions. The JS
`documentFreq.get(term) || 1` treats both a missing and a zero entry as 1,
as does `bm25Term`. -/
def bm25 (lg : ℚ → ℚ) (st : TFIDFState) (queryText : String) (documentId : Nat)
    (k1 b : ℚ) : ℚ :=
  let queryTerms := tokenize queryText
  let filteredQuery := filterTerms st queryTerms
  match st.termFreqs.find? (fun d => d.id == documentId) with
  | none => 0
  | some doc =>
    let numDocs := st.documents.length
    if numDocs = 0 then 0
    else
      let avgDocLength : ℚ :=
        ((st.termFreqs.map TFRecord.totalTerms).sum : ℚ) / (numDocs : ℚ)
      filteredQuery.foldl
        (fun score term => score + bm25Term lg st doc avgDocLength k1 b term) 0

/-- tfidf.js `cosineSimilarity(doc1Id, doc2Id)`: union of the two documents'
terms in JS Set order; classic tf (count over document length) weighted by
the `lg (N / df)` idf on both sides; normalized dot product, 0 when either
document is unknown or either magnitude is zero. `sqr` stands for
`Math.sqrt`. -/
def cosineSimilarity (lg sqr : ℚ → ℚ) (st : TFIDFState) (doc1Id doc2Id : Nat) : ℚ :=
  match st.termFreqs.find? (fun d => d.id == doc1Id),
        st.termFreqs.find? (fun d => d.id == doc2Id) with
  | some doc1, some doc2 =>
    let allTerms := dedupFirst (mkeys doc1.termFreq ++ mkeys doc2.termFreq)
    let numDocs := st.documents.length
    let acc := allTerms.foldl (fun (acc : ℚ × ℚ × ℚ) term =>
      let freq1 := (mget doc1.termFreq term).getD 0
      let freq2 := (mget doc2.termFreq term).getD 0
      let tf1 : ℚ := (freq1 : ℚ) / (doc1.totalTerms : ℚ)
      let tf2 : ℚ := (freq2 : ℚ) / (doc2.totalTerms : ℚ)
      let df0 := (mget st.documentFreq term).getD 0
      let df : ℚ := if df0 = 0 then 1 else (df0 : ℚ)
      let idf := lg ((numDocs : ℚ) / df)
      let tfidf1 := tf1 * idf
      let tfidf2 := tf2 * idf
      (acc.1 + tfidf1 * tfidf2, acc.2.1 + tfidf1 * tfidf1, acc.2.2 + tfidf2 * tfidf2))
      (0, 0, 0)
    if acc.2.1 = 0 || acc.2.2 = 0 then 0
    else acc.1 / (sqr acc.2.1 * sqr acc.2.2)
  | _, _ => 0

/-- The object produced by tfidf.js `serialize()` before `JSON.stringify`:
both frequency maps and each per-document term-frequency map are flattened
to their entry lists via `Array.from`. JSON round-tripping of this record
(strings, integers, arrays of pairs) is lossless, so the string layer is
not modelled separately. -/
structure SerializedTFIDF where
  documents : List TFDocEntry
  documentFreq : List (String × Nat)
  globalTermFreq : List (String × Nat)
  totalTermCount : Nat
  termFreqs : List TFRecord
deriving DecidableEq, Repr

/-- tfidf.js `serialize()`: flatten every Map to its entry list. In this
model a map already is its entry list, so the record fields transfer
directly. -/
def serialize (st : TFIDFState) : SerializedTFIDF :=
  { documents := st.documents
    documentFreq := st.documentFreq
    globalTermFreq := st.globalTermFreq
    totalTermCount := st.totalTermCount
    termFreqs := st.termFreqs }

/-- tfidf.js `TFIDF.deserialize(data)`: rebuild every Map from its entry
list with the `new Map(entries)` constructor. -/
def deserialize (data : SerializedTFIDF) : TFIDFState :=
  { documents := data.documents
    documentFreq := mapOfList data.documentFreq
    globalTermFreq := mapOfList data.globalTermFreq
    totalTermCount := data.totalTermCount
    termFreqs := data.termFreqs.map (fun tf => { tf with termFreq := mapOfList tf.termFreq }) }

/-- Well-formed index state: every JS Map in it has unique keys. Every
state reachable through `addDocument`/`removeDocument` satisfies this,
because Map.set never duplicates a key. -/
def StateWF (st : TFIDFState) : Prop :=
  MapWF st.documentFreq ∧ MapWF st.globalTermFreq ∧
    ∀ r ∈ st.termFreqs, MapWF r.termFreq

instance (st : TFIDFState) : Decidable (StateWF st) := by
  unfold StateWF; infer_instance

/-! ## Stable sorting, as JS Array.prototype.sort

JS `sort` is stable; the stable sorted permutation of a list with respect
to a consistent comparator is unique, so any stable sorting algorithm
models it exactly. A stable insertion sort is used because it evaluates by
kernel reduction. `le a b` means the comparator allows `a` at or before
`b`. -/

/-- Insert an element into a sorted list after every element the
comparator allows before it (stability: ties keep the earlier element
first). -/
def insertOrdered (le : α → α → Bool) (a : α) : List α → List α
  | [] => [a]
  | b :: rest => if le b a then b :: insertOrdered le a rest else a :: b :: rest

/-- Stable sort with respect to a boolean comparator, as JS
`Array.prototype.sort` with a consistent comparator. -/
def stableSort (le : α → α → Bool) (l : List α) : List α :=
  l.foldl (fun acc a => insertOrdered le a acc) []

/-! ## workflows.js — the workflow miner -/

/-- A navigation-history record as consumed by `extractSequences`
(only `timestamp`, `toTab.tabId` and `toTab.url` are read). -/
structure NavEvent where
  timestamp : ℤ
  toTabId : Nat
  toUrl : String
deriving DecidableEq, Repr

/-- Element of a candidate sequence's `tabs` array. -/
structure SeqTab where
  tabId : Nat
  url : String
  timestamp : ℤ
deriving DecidableEq, Repr

/-- A candidate sequence emitted by `extractSequences`. -/
structure NavSequence where
  tabs : List SeqTab
  len : Nat
  startTime : ℤ
  endTime : ℤ
deriving DecidableEq, Repr

/-- The 10-minute contiguity gap of workflows.js, in milliseconds. -/
def contiguityGapMs : ℤ := 10 * 60 * 1000

/-- Contiguity test of `extractSequences`: every consecutive pair of events
in the slice is at most 10 minutes apart. -/
def contiguousB (slice : List NavEvent) : Bool :=
  (slice.zip slice.tail).all (fun p => decide (p.2.timestamp - p.1.timestamp ≤ contiguityGapMs))

/-- workflows.js `extractSequences(minLength = 2, maxLength = 5)` applied to
the navigation events already retrieved for the 30-day lookback window:
sort by timestamp, and for every length in `[minLength, maxLength]` and
every start offset emit the contiguous slice when each step gap is within
10 minutes. -/
def extractSequences (events : List NavEvent) (minLength maxLength : Nat) :
    List NavSequence :=
  if events.length < minLength then []
  else
    let sorted := stableSort (fun a b => decide (a.timestamp ≤ b.timestamp)) events
    ((List.range' minLength (maxLength + 1 - minLength)).map (fun len =>
      if len ≤ sorted.length then
        (List.range (sorted.length - len + 1)).filterMap (fun i =>
          let slice := (sorted.drop i).take len
          if contiguousB slice then
            some { tabs := slice.map (fun nav => ⟨nav.toTabId, nav.toUrl, nav.timestamp⟩)
                   len := len
                   startTime := ((slice.map NavEvent.timestamp).headD 0)
                   endTime := ((slice.map NavEvent.timestamp).getLastD 0) }
          else none)
      else [])).flatten

/-- Value of one `sequenceMap` entry in `detectWorkflows`. -/
structure GroupData where
  pattern : List String
  occurrences : List (ℤ × ℤ)
  frequency : Nat
deriving DecidableEq, Repr

/-- The grouping key of `detectWorkflows`: the sequence's destination URLs
joined with the arrow separator. -/
def seqKey (seq : NavSequence) : String :=
  String.intercalate "->" (seq.tabs.map SeqTab.url)

/-- Occurrence count recorded in the sequence map for a chain key (0 when
the key is absent). -/
def groupFreq (m : JsMap String GroupData) (k : String) : Nat :=
  ((mget m k).map GroupData.frequency).getD 0

/-- One iteration of the grouping loop in `detectWorkflows`: create the
entry for the sequence's key if absent, then push the occurrence and bump
the frequency. -/
def groupStep (m : JsMap String GroupData) (seq : NavSequence) : JsMap String GroupData :=
  let key := seqKey seq
  let m' := if (mget m key).isSome then m
            else mset m key ⟨seq.tabs.map SeqTab.url, [], 0⟩
  match mget m' key with
  | some e => mset m' key ⟨e.pattern, e.occurrences ++ [(seq.startTime, seq.endTime)], e.frequency + 1⟩
  | none => m'

/-- The `sequenceMap` of `detectWorkflows`, keyed by URL chain. -/
def groupSequences (seqs : List NavSequence) : JsMap String GroupData :=
  seqs.foldl groupStep []

/-- A materialized workflow pattern record. `wtype` models the JS field
named `type` (always the string `navigation_sequence`). -/
structure Workflow where
  id : String
  pattern : List String
  frequency : Nat
  lastOccurrence : ℤ
  avgInterval : ℚ
  confidence : ℚ
  wtype : String
deriving DecidableEq, Repr

/-- Materialization of one surviving group entry in `detectWorkflows`: sort
the occurrences by start time, average the gaps between consecutive
occurrences (end to next start), compute confidence as
`min(frequency / 10, 1)`. Ids are attached afterwards by `assignIds`. -/
def mkWorkflow (data : GroupData) : Workflow :=
  let sortedOccurrences := stableSort (fun a b => decide (a.1 ≤ b.1)) data.occurrences
  let totalInterval : ℤ :=
    (sortedOccurrences.zip sortedOccurrences.tail).foldl
      (fun acc p => acc + (p.2.1 - p.1.2)) 0
  let avgInterval : ℚ :=
    if 1 < sortedOccurrences.length then
      (totalInterval : ℚ) / ((sortedOccurrences.length : ℚ) - 1)
    else 0
  { id := ""
    pattern := data.pattern
    frequency := data.frequency
    lastOccurrence := ((sortedOccurrences.map Prod.fst).getLastD 0)
    avgInterval := avgInterval
    confidence := min ((data.frequency : ℚ) / 10) 1
    wtype := "navigation_sequence" }

/-- Id assignment of `detectWorkflows`: the JS source draws a fresh
`workflow_${Date.now()}_${random}` string per pushed workflow; the
generator is abstracted as `fresh`, applied in push order. -/
def assignIds (fresh : Nat → String) (n : Nat) : List Workflow → List Workflow
  | [] => []
  | w :: rest => { w with id := fresh n } :: assignIds fresh (n + 1) rest

/-- workflows.js `detectWorkflows()` applied to the retrieved navigation
events: extract candidate sequences, group them by URL-chain key, keep the
groups with frequency at least 3, materialize them, and sort the result by
descending frequency (stable, as the JS sort). -/
def detectWorkflows (fresh : Nat → String) (events : List NavEvent) : List Workflow :=
  let sequences := extractSequences events 2 5
  if sequences.length = 0 then []
  else
    let groups := groupSequences sequences
    let workflows := (groups.filter (fun p => 3 ≤ p.2.frequency)).map (fun p => mkWorkflow p.2)
    stableSort (fun a b => decide (b.frequency ≤ a.frequency)) (assignIds fresh 0 workflows)

/-- The URL chain of a stored workflow (its grouping key). -/
def workflowKey (w : Workflow) : String := String.intercalate "->" w.pattern

/-- Number of candidate sequences in the log whose URL chain is `k`. -/
def chainCount (events : List NavEvent) (k : String) : Nat :=
  ((extractSequences events 2 5).filter (fun s => seqKey s == k)).length

/-- db.js `upsertWorkflow(workflowData)`: an IndexedDB `put` on the
`workflows` store, whose key path is the record's `id` field. -/
def upsertWorkflow (store : JsMap String Workflow) (w : Workflow) : JsMap String Workflow :=
  mset store w.id w

/-- One mining pass of `detectWorkflows` including its save loop: every
mined workflow is `put` into the workflows store under its own id. -/
def runMiningPass (fresh : Nat → String) (events : List NavEvent)
    (store : JsMap String Workflow) : JsMap String Workflow :=
  (detectWorkflows fresh events).foldl upsertWorkflow store

/-! ## relationships.js — the relationship graph -/

/-- Relationship metadata sub-record. The fields `semanticScore` and
`aiReason` are absent until enrichment in the JS object; they are modelled
with the neutral defaults `0` and the empty string. -/
structure RelMetadata where
  commonDomain : Bool
  sharedEntities : List String
  sharedTopics : List String
  coOccurrenceScore : ℚ
  semanticScore : ℚ
  aiReason : String
deriving DecidableEq, Repr

/-- Relationship flags sub-record. -/
structure RelFlags where
  isAIEnriched : Bool
  needsUpdate : Bool
deriving DecidableEq, Repr

/-- A `tab_relationships` record. `rtype` models the JS field named `type`. -/
structure Relationship where
  id : String
  tab1Id : String
  tab2Id : String
  strength : ℚ
  rtype : String
  createdAt : ℤ
  lastAccessedAt : ℤ
  accessCount : Nat
  metadata : RelMetadata
  flags : RelFlags
deriving DecidableEq, Repr

/-- A `tabs_index` record, restricted to the fields relationships.js reads:
the internal document id (of the form `tab_...`), the runtime Chrome tab
id, the URL and the title. -/
structure TabDoc where
  id : String
  tabId : Nat
  url : String
  title : String
deriving DecidableEq, Repr

/-- Characters after the first `://` of a URL (empty when there is none;
the JS `new URL` constructor would throw on such input). -/
def afterScheme : List Char → List Char
  | ':' :: '/' :: '/' :: rest => rest
  | _ :: rest => afterScheme rest
  | [] => []

/-- Hostname of a URL as read by `new URL(url).hostname`, for well-formed
`scheme://host/path` inputs. -/
def hostname (url : String) : String :=
  String.mk ((afterScheme url.toList).takeWhile (fun c => c ≠ '/'))

/-- db.js `getRelationship(id)` (lines 318-327): a plain `store.get(id)` on
the `tab_relationships` store, whose key path is the relationship's own
`id` field. It takes a single key argument; the second argument passed at
the relationships.js call sites is silently dropped by JavaScript. -/
def getRelationship (store : JsMap String Relationship) (id : String) :
    Option Relationship :=
  mget store id

/-- relationships.js `strengthenRelationship(relationshipId)`: look the
relationship up by id; if absent do nothing, otherwise raise the strength
to `min(strength + 0.1, 1)`, bump the access count and touch the
last-accessed timestamp. -/
def strengthenRelationship (store : JsMap String Relationship)
    (relationshipId : String) (now : ℤ) : JsMap String Relationship :=
  match mget store relationshipId with
  | none => store
  | some rel =>
    mset store relationshipId
      { rel with strength := min (rel.strength + 0.1) 1
                 accessCount := rel.accessCount + 1
                 lastAccessedAt := now }

/-- relationships.js `createBasicRelationships(tab1Id, tab2Id, reason)`:
resolve both tabs by runtime tab id; check for an existing relationship
via `db.getRelationship(tab1.id, tab2.id)` — which `store.get`s the
relationships store at the key `tab1.id` (the extra argument is dropped);
strengthen the found record, else insert a fresh record with strength 0.3,
access count 1 and type equal to the reason, under a freshly generated
`rel_${Date.now()}_${random}` id abstracted as `freshId`. -/
def createBasicRelationships (tabs : List TabDoc) (store : JsMap String Relationship)
    (tab1Id tab2Id : Nat) (reason : String) (freshId : String) (now : ℤ) :
    JsMap String Relationship :=
  match tabs.find? (fun t => t.tabId == tab1Id), tabs.find? (fun t => t.tabId == tab2Id) with
  | some tab1, some tab2 =>
    match getRelationship store tab1.id with
    | some existing => strengthenRelationship store existing.id now
    | none =>
      mset store freshId
        { id := freshId
          tab1Id := tab1.id
          tab2Id := tab2.id
          strength := 0.3
          rtype := reason
          createdAt := now
          lastAccessedAt := now
          accessCount := 1
          metadata := { commonDomain := hostname tab1.url == hostname tab2.url
                        sharedEntities := []
                        sharedTopics := []
                        coOccurrenceScore := 0
                        semanticScore := 0
                        aiReason := "" }
          flags := { isAIEnriched := false, needsUpdate := false } }
  | _, _ => store

/-- Enriched content of a tab document as read by
`enrichRelationshipsWithAI` (`tab.content.entities` / `tab.content.topics`,
defaulting to empty lists). -/
structure TabContent where
  entities : List String
  topics : List String
deriving DecidableEq, Repr

/-- Parsed result of the semantic Prompt-API call
(`analyzeSemanticRelationship`); `none` models both an unavailable model
and a thrown error. -/
structure SemanticAnalysis where
  semanticScore : ℚ
  relationshipType : String
  reason : String
deriving DecidableEq, Repr

/-- Case-folded entity set of one side, in JS Set order. -/
def loweredSet (l : List String) : List String :=
  dedupFirst (l.map jsToLower)

/-- Outcome of processing one relationship inside
`enrichRelationshipsWithAI`: either the record is deleted as unrelated or
it is updated in place. -/
inductive EnrichOutcome
  | deleted
  | updated (rel : Relationship)
deriving DecidableEq, Repr

/-- Per-relationship body of relationships.js `enrichRelationshipsWithAI`
(lines 158-225), reached when at least one side is indexed: compute the
shared entities/topics and the Jaccard co-occurrence score; when the
semantic analysis ran (both sides indexed and the model answered) add
`semanticScore * 0.4` and cap the sum at 1 — the `Math.min(..., 1)` cap is
applied only on this branch; delete the relationship when the semantic
score (0 when absent) is below 0.2 and there is no shared entity and no
shared topic; otherwise write the updated record back. -/
def enrichOne (rel : Relationship) (tab1 tab2 : TabContent)
    (semanticAnalysis : Option SemanticAnalysis) : EnrichOutcome :=
  let entities1 := loweredSet tab1.entities
  let entities2 := loweredSet tab2.entities
  let sharedEntities := entities1.filter (fun e => e ∈ entities2)
  let topics1 := loweredSet tab1.topics
  let topics2 := loweredSet tab2.topics
  let sharedTopics := topics1.filter (fun t => t ∈ topics2)
  let allEntities := dedupFirst (entities1 ++ entities2)
  let allTopics := dedupFirst (topics1 ++ topics2)
  let entityScore : ℚ :=
    if allEntities.length > 0 then (sharedEntities.length : ℚ) / (allEntities.length : ℚ) else 0
  let topicScore : ℚ :=
    if allTopics.length > 0 then (sharedTopics.length : ℚ) / (allTopics.length : ℚ) else 0
  let jaccardScore := (entityScore + topicScore) / 2
  let base := rel.strength + jaccardScore * 0.3
  let finalStrength : ℚ :=
    match semanticAnalysis with
    | some sa => min (base + sa.semanticScore * 0.4) 1
    | none => base
  let finalType : String :=
    match semanticAnalysis with
    | some sa => sa.relationshipType
    | none => rel.rtype
  let aiReason : String :=
    match semanticAnalysis with
    | some sa => sa.reason
    | none => ""
  let isUnrelated :=
    ((semanticAnalysis.map SemanticAnalysis.semanticScore).getD 0 < 0.2) ∧
      sharedEntities = [] ∧ sharedTopics = []
  if isUnrelated then .deleted
  else .updated
    { rel with rtype := finalType
               strength := finalStrength
               metadata := { rel.metadata with
                               sharedEntities := sharedEntities
                               sharedTopics := sharedTopics
                               coOccurrenceScore := jaccardScore
                               semanticScore := (semanticAnalysis.map SemanticAnalysis.semanticScore).getD 0
                               aiReason := aiReason }
               flags := { rel.flags with isAIEnriched := true } }

/-- One week in milliseconds, as in `applyRelationshipDecay`. -/
def oneWeekMs : ℤ := 7 * 24 * 60 * 60 * 1000

/-- Per-relationship body of relationships.js `applyRelationshipDecay`: a
relationship accessed within the last week is left untouched; otherwise
the strength is reduced by `min(weeksInactive * 0.05, 0.3)` (never below
0), the record is deleted when the reduced strength falls below 0.1, and
persisted with the reduced strength otherwise. `none` means deleted. -/
def decayStep (now : ℤ) (rel : Relationship) : Option Relationship :=
  let timeSinceAccess := now - rel.lastAccessedAt
  if oneWeekMs < timeSinceAccess then
    let weeksInactive : ℚ := (timeSinceAccess : ℚ) / (oneWeekMs : ℚ)
    let decayAmount := min (weeksInactive * 0.05) 0.3
    let newStrength := max (rel.strength - decayAmount) 0
    if newStrength < 0.1 then none
    else some { rel with strength := newStrength }
  else some rel

/-- relationships.js `applyRelationshipDecay()` as a sweep over the stored
relationships: apply `decayStep` to each, dropping the deleted ones. -/
def applyRelationshipDecay (now : ℤ) (rels : List Relationship) : List Relationship :=
  rels.filterMap (decayStep now)

/-- The reduced strength computed by `applyRelationshipDecay` for an
aged relationship: the old strength minus `min(weeksInactive * 0.05, 0.3)`,
floored at 0. -/
def decayedStrength (now : ℤ) (rel : Relationship) : ℚ :=
  max (rel.strength - min (((now - rel.lastAccessedAt : ℤ) : ℚ) / (oneWeekMs : ℚ) * 0.05) 0.3) 0

/-! ## Final ranking step of hybrid-scoring.js and lite-mode.js -/

/-- A scored suggestion candidate, reduced to the two fields the final
ordering reads: the numeric Chrome tab id and the composed score. -/
structure ScoredTab where
  id : ℤ
  score : ℚ
deriving DecidableEq, Repr

/-- The sort comparator shared by `getHybridSuggestions` (hybrid-scoring.js
lines 331-336) and `getLiteSuggestions` (lite-mode.js lines 381-386), as a
may-precede relation: the comparator returns `b.score - a.score` when the
scores differ and `a.id - b.id` otherwise, i.e. descending score with ties
broken by ascending tab id. -/
def suggLE (a b : ScoredTab) : Bool :=
  decide (b.score < a.score ∨ (a.score = b.score ∧ a.id ≤ b.id))

/-- The same ordering as a relation, for sortedness statements. -/
def SuggRel (a b : ScoredTab) : Prop :=
  b.score < a.score ∨ (a.score = b.score ∧ a.id ≤ b.id)

/-- Final step of `getHybridSuggestions`: sort the scored candidates with
the shared comparator and keep the top 10. -/
def hybridTopSuggestions (scored : List ScoredTab) : List ScoredTab :=
  (stableSort suggLE scored).take 10

/-- Final step of `getLiteSuggestions`: identical sort-and-truncate over
the lite-scored candidates. -/
def liteTopSuggestions (scored : List ScoredTab) : List ScoredTab :=
  (stableSort suggLE scored).take 10

/-! ## Concrete fixtures used by witnesses and counterexamples -/

/-- Empty metadata record for concrete index states. -/
def metaW : TFMeta := ⟨"", "", ""⟩

/-- A small populated index: two documents sharing the term `banana`. -/
def stW : TFIDFState :=
  addDocument (addDocument TFIDFState.empty "apple banana cherry" 1 metaW)
    "banana cherry date" 2 metaW

/-- Strength of an enrichment outcome (0 for a deleted relationship). -/
def enrichOutcomeStrength : EnrichOutcome → ℚ
  | .deleted => 0
  | .updated rel => rel.strength

/-- A relationship at strength 0.9, not yet AI-enriched. -/
def relC1 : Relationship :=
  ⟨"rel_x", "tab_1_100", "tab_2_100", 0.9, "navigation", 0, 0, 1,
    ⟨false, [], [], 0, 0, ""⟩, ⟨false, false⟩⟩

/-- Enriched content sharing all entities and topics with `tabC1b`. -/
def tabC1a : TabContent := ⟨["alpha"], ["beta"]⟩

/-- Enriched content sharing all entities and topics with `tabC1a`. -/
def tabC1b : TabContent := ⟨["alpha"], ["beta"]⟩

/-- Two tab documents on distinct hosts, runtime tab ids 1 and 2. -/
def tabsC2 : List TabDoc :=
  [⟨"tab_1_100", 1, "https://a.example/x", "A"⟩,
   ⟨"tab_2_100", 2, "https://b.example/y", "B"⟩]

/-- Six navigation events: three contiguous occurrences of the chain
`a->b`, separated by gaps far beyond the 10-minute contiguity window. -/
def evC7 : List NavEvent :=
  [⟨0, 1, "a"⟩, ⟨1, 2, "b"⟩,
   ⟨10000000, 1, "a"⟩, ⟨10000001, 2, "b"⟩,
   ⟨20000000, 1, "a"⟩, ⟨20000001, 2, "b"⟩]

/-- Ten navigation events: three contiguous occurrences of the chain
`a->b` and two of `c->d`, separated by large gaps. -/
def evC6 : List NavEvent :=
  [⟨0, 1, "a"⟩, ⟨1, 2, "b"⟩,
   ⟨10000000, 3, "c"⟩, ⟨10000001, 4, "d"⟩,
   ⟨20000000, 1, "a"⟩, ⟨20000001, 2, "b"⟩,
   ⟨30000000, 3, "c"⟩, ⟨30000001, 4, "d"⟩,
   ⟨40000000, 1, "a"⟩, ⟨40000001, 2, "b"⟩]

/-- A relationship last accessed two weeks before the sweep time 0. -/
def relC9 : Relationship :=
  ⟨"rel_d", "t1", "t2", 0.5, "navigation", 0, -(2 * oneWeekMs), 1,
    ⟨false, [], [], 0, 0, ""⟩, ⟨false, false⟩⟩

/-- A relationship accessed at the sweep time itself (untouched by decay). -/
def relC9b : Relationship :=
  ⟨"rel_e", "t1", "t3", 0.2, "navigation", 0, 0, 1,
    ⟨false, [], [], 0, 0, ""⟩, ⟨false, false⟩⟩

/-! ## Lemmas about the JS Map model -/

theorem mget_nil [DecidableEq α] (k : α) : mget ([] : JsMap α β) k = none := rfl

theorem mget_mset_self [DecidableEq α] (m : JsMap α β) (k : α) (v : β) :
    mget (mset m k v) k = some v := by
  induction m with
  | nil => simp [mset, mget]
  | cons p rest ih =>
    obtain ⟨k', v'⟩ := p
    by_cases h : k' = k
    · simp [mset, h, mget]
    · simp [mset, if_neg h, mget, h, ih]

theorem mget_mset_ne [DecidableEq α] (m : JsMap α β) (k : α) (v : β) (k' : α)
    (h : k' ≠ k) : mget (mset m k v) k' = mget m k' := by
  induction m with
  | nil => simp [mset, mget, Ne.symm h]
  | cons p rest ih =>
    obtain ⟨k₀, v₀⟩ := p
    by_cases h₀ : k₀ = k
    · subst h₀
      simp [mset, mget, Ne.symm h, h]
    · by_cases h₁ : k₀ = k'
      · subst h₁; simp [mset, if_neg h₀, mget]
      · simp [mset, if_neg h₀, mget, h₁, ih]

theorem mget_mdelete_ne [DecidableEq α] (m : JsMap α β) (k k' : α) (h : k' ≠ k) :
    mget (mdelete m k) k' = mget m k' := by
  induction m with
  | nil => simp [mdelete]
  | cons p rest ih =>
    obtain ⟨k₀, v₀⟩ := p
    by_cases h₀ : k₀ = k
    · subst h₀; simp [mdelete, mget, Ne.symm h]
    · by_cases h₁ : k₀ = k'
      · subst h₁; simp [mdelete, if_neg h₀, mget]
      · simp [mdelete, if_neg h₀, mget, h₁, ih]

theorem mkeys_mset_of_mem [DecidableEq α] (m : JsMap α β) (k : α) (v : β)
    (h : k ∈ mkeys m) : mkeys (mset m k v) = mkeys m := by
  induction m with
  | nil => simp [mkeys] at h
  | cons p rest ih =>
    obtain ⟨k₀, v₀⟩ := p
    by_cases h₀ : k₀ = k
    · subst h₀; simp [mset, mkeys]
    · simp only [mkeys, List.map_cons, List.mem_cons] at h
      rcases h with h | h
      · exact absurd h.symm h₀
      · have hr := ih h
        unfold mkeys at hr
        simp [mset, if_neg h₀, mkeys, hr]

theorem mkeys_mset_of_not_mem [DecidableEq α] (m : JsMap α β) (k : α) (v : β)
    (h : k ∉ mkeys m) : mkeys (mset m k v) = mkeys m ++ [k] := by
  induction m with
  | nil => simp [mset, mkeys]
  | cons p rest ih =>
    obtain ⟨k₀, v₀⟩ := p
    simp only [mkeys, List.map_cons, List.mem_cons] at h
    push_neg at h
    have hr := ih h.2
    unfold mkeys at hr
    simp [mset, Ne.symm h.1, mkeys, hr]

theorem mapWF_mset [DecidableEq α] (m : JsMap α β) (k : α) (v : β)
    (h : MapWF m) : MapWF (mset m k v) := by
  by_cases hk : k ∈ mkeys m
  · unfold MapWF
    rw [mkeys_mset_of_mem m k v hk]
    exact h
  · unfold MapWF
    rw [mkeys_mset_of_not_mem m k v hk]
    refine List.Nodup.append h (List.nodup_singleton k) ?_
    intro x hx hmem
    rw [List.mem_singleton.mp hmem] at hx
    exact hk hx

theorem mkeys_mdelete_sublist [DecidableEq α] (m : JsMap α β) (k : α) :
    (mkeys (mdelete m k)).Sublist (mkeys m) := by
  induction m with
  | nil => simp [mdelete]
  | cons p rest ih =>
    obtain ⟨k₀, v₀⟩ := p
    by_cases h₀ : k₀ = k
    · subst h₀
      simp only [mdelete, if_pos rfl, mkeys, List.map_cons]
      exact List.sublist_cons_self k₀ (rest.map Prod.fst)
    · simp only [mdelete, if_neg h₀, mkeys, List.map_cons]
      exact ih.cons₂ k₀

theorem mapWF_mdelete [DecidableEq α] (m : JsMap α β) (k : α) (h : MapWF m) :
    MapWF (mdelete m k) :=
  (mkeys_mdelete_sublist m k).nodup h

theorem mget_none_iff [DecidableEq α] (m : JsMap α β) (k : α) :
    mget m k = none ↔ k ∉ mkeys m := by
  induction m with
  | nil => simp [mget, mkeys]
  | cons p rest ih =>
    obtain ⟨k₀, v₀⟩ := p
    by_cases h₀ : k₀ = k
    · subst h₀; simp [mget, mkeys]
    · simp [mget, h₀, mkeys, ih, Ne.symm h₀]

theorem mget_mdelete_self [DecidableEq α] (m : JsMap α β) (k : α) (h : MapWF m) :
    mget (mdelete m k) k = none := by
  induction m with
  | nil => simp [mdelete, mget]
  | cons p rest ih =>
    obtain ⟨k₀, v₀⟩ := p
    unfold MapWF mkeys at h
    simp only [List.map_cons, List.nodup_cons] at h
    by_cases h₀ : k₀ = k
    · subst h₀
      simp only [mdelete, if_pos rfl]
      exact (mget_none_iff rest k₀).mpr h.1
    · simp only [mdelete, if_neg h₀, mget, if_neg h₀]
      exact ih h.2

theorem mget_of_mem_wf [DecidableEq α] (m : JsMap α β) (k : α) (v : β)
    (hm : (k, v) ∈ m) (hwf : MapWF m) : mget m k = some v := by
  induction m with
  | nil => simp at hm
  | cons p rest ih =>
    obtain ⟨k₀, v₀⟩ := p
    unfold MapWF mkeys at hwf
    simp only [List.map_cons, List.nodup_cons] at hwf
    rcases List.mem_cons.mp hm with h | h
    · rw [show k₀ = k from (Prod.mk.injEq .. ▸ h.symm).1,
        show v₀ = v from (Prod.mk.injEq .. ▸ h.symm).2]
      simp [mget]
    · have hk : k₀ ≠ k := by
        intro hk
        exact hwf.1 (hk ▸ List.mem_map_of_mem Prod.fst h)
      simp only [mget, if_neg hk]
      exact ih h hwf.2

theorem mget_mem [DecidableEq α] (m : JsMap α β) (k : α) (v : β)
    (h : mget m k = some v) : (k, v) ∈ m := by
  induction m with
  | nil => simp [mget] at h
  | cons p rest ih =>
    obtain ⟨k₀, v₀⟩ := p
    by_cases h₀ : k₀ = k
    · subst h₀
      simp [mget] at h
      subst h
      exact List.mem_cons_self _ _
    · simp only [mget, if_neg h₀] at h
      exact List.mem_cons_of_mem _ (ih h)

theorem mset_eq_append [DecidableEq α] (m : JsMap α β) (k : α) (v : β)
    (h : mget m k = none) : mset m k v = m ++ [(k, v)] := by
  induction m with
  | nil => simp [mset]
  | cons p rest ih =>
    obtain ⟨k₀, v₀⟩ := p
    by_cases h₀ : k₀ = k
    · simp [mget, h₀] at h
    · simp only [mget, if_neg h₀] at h
      simp [mset, if_neg h₀, ih h]

theorem mget_append_left [DecidableEq α] (m₁ m₂ : JsMap α β) (k : α) (v : β)
    (h : mget m₁ k = some v) : mget (m₁ ++ m₂) k = some v := by
  induction m₁ with
  | nil => simp [mget] at h
  | cons p rest ih =>
    obtain ⟨k₀, v₀⟩ := p
    by_cases h₀ : k₀ = k
    · simp only [mget, if_pos h₀] at h
      simp [mget, h₀, h]
    · simp only [mget, if_neg h₀] at h
      simp [mget, h₀, ih h]

theorem mget_append_right [DecidableEq α] (m₁ m₂ : JsMap α β) (k : α)
    (h : mget m₁ k = none) : mget (m₁ ++ m₂) k = mget m₂ k := by
  induction m₁ with
  | nil => simp
  | cons p rest ih =>
    obtain ⟨k₀, v₀⟩ := p
    by_cases h₀ : k₀ = k
    · simp [mget, h₀] at h
    · simp only [mget, if_neg h₀] at h
      simp [mget, h₀, ih h]

theorem mapOfList_aux [DecidableEq α] (l acc : List (α × β))
    (h : (mkeys (acc ++ l)).Nodup) :
    l.foldl (fun m p => mset m p.1 p.2) acc = acc ++ l := by
  induction l generalizing acc with
  | nil => simp
  | cons p rest ih =>
    obtain ⟨k, v⟩ := p
    have hk : k ∉ mkeys acc := by
      unfold mkeys at h ⊢
      intro hmem
      simp only [List.map_append, List.map_cons, List.nodup_append] at h
      exact h.2.2 hmem (List.mem_cons_self k _)
    have hset : mset acc k v = acc ++ [(k, v)] :=
      mset_eq_append acc k v ((mget_none_iff acc k).mpr hk)
    simp only [List.foldl_cons, hset]
    rw [ih (acc ++ [(k, v)]) (by simpa using h)]
    simp

theorem mapOfList_self [DecidableEq α] (l : List (α × β)) (h : MapWF l) :
    mapOfList l = l := by
  unfold mapOfList
  simpa using mapOfList_aux l [] (by simpa [mkeys] using h)

/-! ## Lemmas about first-occurrence deduplication -/

theorem mem_dedupFirstAux [DecidableEq α] (l : List α) (seen : List α) (a : α) :
    a ∈ dedupFirstAux seen l ↔ a ∈ l ∧ a ∉ seen := by
  induction l generalizing seen with
  | nil => simp [dedupFirstAux]
  | cons b rest ih =>
    by_cases hb : b ∈ seen
    · rw [dedupFirstAux, if_pos hb, ih]
      constructor
      · rintro ⟨h₁, h₂⟩
        exact ⟨List.mem_cons_of_mem b h₁, h₂⟩
      · rintro ⟨h₁, h₂⟩
        rcases List.mem_cons.mp h₁ with rfl | h₁
        · exact absurd hb h₂
        · exact ⟨h₁, h₂⟩
    · rw [dedupFirstAux, if_neg hb]
      constructor
      · intro hmem
        rcases List.mem_cons.mp hmem with rfl | hmem
        · exact ⟨List.mem_cons_self a rest, hb⟩
        · obtain ⟨h₁, h₂⟩ := (ih (b :: seen)).mp hmem
          exact ⟨List.mem_cons_of_mem b h₁, fun hs => h₂ (List.mem_cons_of_mem b hs)⟩
      · rintro ⟨h₁, h₂⟩
        rcases List.mem_cons.mp h₁ with rfl | h₁
        · exact List.mem_cons_self a _
        · by_cases hab : a = b
          · exact hab ▸ List.mem_cons_self b _
          · refine List.mem_cons_of_mem b ((ih (b :: seen)).mpr ⟨h₁, ?_⟩)
            intro hs
            rcases List.mem_cons.mp hs with h | h
            · exact hab h
            · exact h₂ h

theorem mem_dedupFirst [DecidableEq α] (l : List α) (a : α) :
    a ∈ dedupFirst l ↔ a ∈ l := by
  unfold dedupFirst
  simp [mem_dedupFirstAux]

theorem nodup_dedupFirstAux [DecidableEq α] (l : List α) (seen : List α) :
    (dedupFirstAux seen l).Nodup := by
  induction l generalizing seen with
  | nil => simp [dedupFirstAux]
  | cons b rest ih =>
    by_cases hb : b ∈ seen
    · rw [dedupFirstAux, if_pos hb]
      exact ih seen
    · rw [dedupFirstAux, if_neg hb]
      refine List.nodup_cons.mpr ⟨?_, ih (b :: seen)⟩
      intro hmem
      exact ((mem_dedupFirstAux rest (b :: seen) b).mp hmem).2 (List.mem_cons_self b seen)

theorem nodup_dedupFirst [DecidableEq α] (l : List α) : (dedupFirst l).Nodup :=
  nodup_dedupFirstAux l []

/-! ## Lemmas about the counting steps of addDocument / removeDocument -/

theorem mget_bump_self [DecidableEq α] (m : JsMap α Nat) (t : α) :
    mget (bumpCount m t) t = some ((mget m t).getD 0 + 1) :=
  mget_mset_self m t _

theorem mget_bump_ne [DecidableEq α] (m : JsMap α Nat) (t t' : α) (h : t' ≠ t) :
    mget (bumpCount m t) t' = mget m t' :=
  mget_mset_ne m t _ t' h

theorem mapWF_bump [DecidableEq α] (m : JsMap α Nat) (t : α) (h : MapWF m) :
    MapWF (bumpCount m t) :=
  mapWF_mset m t _ h

theorem mget_drop_ne [DecidableEq α] (m : JsMap α Nat) (t t' : α) (h : t' ≠ t) :
    mget (dropCount m t) t' = mget m t' := by
  unfold dropCount
  cases hm : mget m t with
  | none => exact mget_mset_ne m t 0 t' h
  | some f =>
    by_cases hf : f ≤ 1
    · simp only [if_pos hf]
      exact mget_mdelete_ne m t t' h
    · simp only [if_neg hf]
      exact mget_mset_ne m t _ t' h

theorem mapWF_drop [DecidableEq α] (m : JsMap α Nat) (t : α) (h : MapWF m) :
    MapWF (dropCount m t) := by
  unfold dropCount
  cases mget m t with
  | none => exact mapWF_mset m t 0 h
  | some f =>
    by_cases hf : f ≤ 1
    · simp only [if_pos hf]; exact mapWF_mdelete m t h
    · simp only [if_neg hf]; exact mapWF_mset m t _ h

theorem mget_drop_self_le [DecidableEq α] (m : JsMap α Nat) (t : α) (f : Nat)
    (hwf : MapWF m) (h : mget m t = some f) (hf : f ≤ 1) :
    mget (dropCount m t) t = none := by
  unfold dropCount
  rw [h]
  simp only [if_pos hf]
  exact mget_mdelete_self m t hwf

theorem mget_drop_self_gt [DecidableEq α] (m : JsMap α Nat) (t : α) (f : Nat)
    (h : mget m t = some f) (hf : ¬ f ≤ 1) :
    mget (dropCount m t) t = some (f - 1) := by
  unfold dropCount
  rw [h]
  simp only [if_neg hf]
  exact mget_mset_self m t _

theorem foldl_bump_not_mem [DecidableEq α] (l : List α) (m : JsMap α Nat) (t : α)
    (h : t ∉ l) : mget (l.foldl bumpCount m) t = mget m t := by
  induction l generalizing m with
  | nil => rfl
  | cons a rest ih =>
    simp only [List.mem_cons, not_or] at h
    rw [List.foldl_cons, ih (bumpCount m a) h.2, mget_bump_ne m a t h.1]

theorem foldl_drop_not_mem [DecidableEq α] (l : List α) (m : JsMap α Nat) (t : α)
    (h : t ∉ l) : mget (l.foldl dropCount m) t = mget m t := by
  induction l generalizing m with
  | nil => rfl
  | cons a rest ih =>
    simp only [List.mem_cons, not_or] at h
    rw [List.foldl_cons, ih (dropCount m a) h.2, mget_drop_ne m a t h.1]

theorem foldl_bump_wf [DecidableEq α] (l : List α) (m : JsMap α Nat)
    (h : MapWF m) : MapWF (l.foldl bumpCount m) := by
  induction l generalizing m with
  | nil => exact h
  | cons a rest ih => exact ih (bumpCount m a) (mapWF_bump m a h)

theorem foldl_drop_wf [DecidableEq α] (l : List α) (m : JsMap α Nat)
    (h : MapWF m) : MapWF (l.foldl dropCount m) := by
  induction l generalizing m with
  | nil => exact h
  | cons a rest ih => exact ih (dropCount m a) (mapWF_drop m a h)

/-- Core of the add/remove symmetry: bumping every term of a duplicate-free
list once and then dropping every term of the same list restores the count
map pointwise, provided the map is well-formed and holds no zero counts
(as every reachable document-frequency map does). -/
theorem bump_drop_restore [DecidableEq α] (l : List α) (m : JsMap α Nat)
    (hnd : l.Nodup) (hwf : MapWF m) (hpos : ∀ p ∈ m, 1 ≤ p.2) (k : α) :
    mget (l.foldl dropCount (l.foldl bumpCount m)) k = mget m k := by
  by_cases hk : k ∈ l
  · obtain ⟨l₁, l₂, rfl⟩ := List.append_of_mem hk
    have hnd' := hnd
    rw [List.nodup_append] at hnd'
    obtain ⟨hnd₁, hnd₂, hdisj⟩ := hnd'
    rw [List.nodup_cons] at hnd₂
    have hk₁ : k ∉ l₁ := fun hmem => hdisj hmem (List.mem_cons_self k l₂)
    have hk₂ : k ∉ l₂ := hnd₂.1
    have hgA : mget (l₁.foldl bumpCount m) k = mget m k := foldl_bump_not_mem l₁ m k hk₁
    rw [List.foldl_append, List.foldl_cons, List.foldl_append, List.foldl_cons]
    set A := l₁.foldl bumpCount m with hA
    set C := l₂.foldl bumpCount (bumpCount A k) with hC
    have hwfA : MapWF A := foldl_bump_wf l₁ m hwf
    have hwfB : MapWF (bumpCount A k) := mapWF_bump A k hwfA
    have hwfC : MapWF C := foldl_bump_wf l₂ _ hwfB
    have hgetC : mget C k = some ((mget m k).getD 0 + 1) := by
      rw [hC, foldl_bump_not_mem l₂ _ k hk₂, mget_bump_self, hgA]
    have hwfD : MapWF (l₁.foldl dropCount C) := foldl_drop_wf l₁ C hwfC
    have hgetD : mget (l₁.foldl dropCount C) k = some ((mget m k).getD 0 + 1) := by
      rw [foldl_drop_not_mem l₁ C k hk₁, hgetC]
    rw [foldl_drop_not_mem l₂ _ k hk₂]
    cases hmk : mget m k with
    | none =>
      have : mget (l₁.foldl dropCount C) k = some 1 := by rw [hgetD, hmk]; rfl
      exact mget_drop_self_le _ k 1 hwfD this (le_refl 1)
    | some v =>
      have hv : 1 ≤ v := hpos (k, v) (mget_mem m k v hmk)
      have : mget (l₁.foldl dropCount C) k = some (v + 1) := by rw [hgetD, hmk]; rfl
      rw [mget_drop_self_gt _ k (v + 1) this (by omega)]
      simp
  · rw [foldl_drop_not_mem l _ k hk, foldl_bump_not_mem l m k hk]

/-! ## Shape lemmas for addDocument / removeDocument -/

theorem addDocument_documents (st : TFIDFState) (text : String) (id : Nat) (m : TFMeta) :
    (addDocument st text id m).documents = st.documents ++ [⟨id, text, m⟩] := rfl

theorem addDocument_documentFreq (st : TFIDFState) (text : String) (id : Nat) (m : TFMeta) :
    (addDocument st text id m).documentFreq =
      (dedupFirst (addedTerms st text)).foldl bumpCount st.documentFreq := rfl

theorem addDocument_termFreqs (st : TFIDFState) (text : String) (id : Nat) (m : TFMeta) :
    (addDocument st text id m).termFreqs = st.termFreqs ++
      [⟨id, (addedTerms st text).foldl bumpCount [], addedTerms st text,
        (dedupFirst (addedTerms st text)).length, (addedTerms st text).length, m⟩] := rfl

theorem addDocument_globalTermFreq (st : TFIDFState) (text : String) (id : Nat) (m : TFMeta) :
    (addDocument st text id m).globalTermFreq =
      (tokenize text).foldl bumpCount st.globalTermFreq := rfl

theorem addDocument_totalTermCount (st : TFIDFState) (text : String) (id : Nat) (m : TFMeta) :
    (addDocument st text id m).totalTermCount =
      st.totalTermCount + (tokenize text).length := rfl

theorem findIdx?_all_false (p : α → Bool) (l : List α) (h : ∀ x ∈ l, p x = false) :
    ∀ i, List.findIdx? p l i = none := by
  induction l with
  | nil => intro i; exact List.findIdx?_nil
  | cons a rest ih =>
    intro i
    rw [List.findIdx?_cons, h a (List.mem_cons_self a rest)]
    simp only [Bool.false_eq_true, if_false]
    exact ih (fun x hx => h x (List.mem_cons_of_mem a hx)) (i + 1)

theorem findIdx?_append_singleton (p : α → Bool) (l : List α) (a : α)
    (hl : ∀ x ∈ l, p x = false) (ha : p a = true) :
    ∀ i, List.findIdx? p (l ++ [a]) i = some (i + l.length) := by
  induction l with
  | nil =>
    intro i
    simp only [List.nil_append, List.findIdx?_cons, ha, if_pos, List.findIdx?_nil]
    simp
  | cons x rest ih =>
    intro i
    rw [List.cons_append, List.findIdx?_cons, hl x (List.mem_cons_self x rest)]
    simp only [Bool.false_eq_true, if_false]
    rw [ih (fun y hy => hl y (List.mem_cons_of_mem x hy)) (i + 1)]
    simp only [List.length_cons]
    congr 1
    omega

theorem eraseIdx_concat (l : List α) (a : α) : (l ++ [a]).eraseIdx l.length = l := by
  rw [List.eraseIdx_append_of_length_le (le_refl l.length)]
  simp [List.eraseIdx]

theorem removeDocument_not_found (st : TFIDFState) (id : Nat)
    (h : ∀ d ∈ st.documents, d.id ≠ id) : removeDocument st id = st := by
  unfold removeDocument
  rw [findIdx?_all_false _ st.documents
    (fun d hd => beq_eq_false_iff_ne.mpr (h d hd)) 0]

theorem removeDocument_found (st : TFIDFState) (id n : Nat) (r : TFRecord)
    (h1 : st.documents.findIdx? (fun d => d.id == id) = some n)
    (h2 : st.termFreqs[n]? = some r) :
    removeDocument st id =
      { st with documents := st.documents.eraseIdx n
                termFreqs := st.termFreqs.eraseIdx n
                documentFreq := (dedupFirst r.terms).foldl dropCount st.documentFreq } := by
  simp only [removeDocument, h1, h2]

/-! ## C3 — add/remove symmetry of the document-frequency bookkeeping -/

/-- C3 (amended): for every index state whose bookkeeping arrays are
aligned, whose document-frequency map is well-formed with strictly positive
counts, and for every document whose external id is not already present in
the index, `addDocument` followed by `removeDocument` of that id restores
the document-frequency map pointwise (terms whose count would reach zero
are deleted, so lookups return `none` again rather than a zero entry),
restores the document and term-frequency arrays, and leaves the global
term-frequency counter and total term count at their post-add values: the
add contributed one bump per raw token and `(tokenize text).length` to the
total, and the remove rolls neither back. -/
theorem add_remove_restores_docFreq (st : TFIDFState) (text : String) (id : Nat)
    (metadata : TFMeta)
    (hlen : st.termFreqs.length = st.documents.length)
    (hfresh : ∀ d ∈ st.documents, d.id ≠ id)
    (hwf : MapWF st.documentFreq)
    (hpos : ∀ p ∈ st.documentFreq, 1 ≤ p.2) :
    (∀ term, mget (removeDocument (addDocument st text id metadata) id).documentFreq term
        = mget st.documentFreq term) ∧
    (removeDocument (addDocument st text id metadata) id).documents = st.documents ∧
    (removeDocument (addDocument st text id metadata) id).termFreqs = st.termFreqs ∧
    (removeDocument (addDocument st text id metadata) id).globalTermFreq
        = (tokenize text).foldl bumpCount st.globalTermFreq ∧
    (removeDocument (addDocument st text id metadata) id).totalTermCount
        = st.totalTermCount + (tokenize text).length := by
  have hidx : (addDocument st text id metadata).documents.findIdx?
      (fun d => d.id == id) = some st.documents.length := by
    rw [addDocument_documents]
    have := findIdx?_append_singleton (fun d => d.id == id) st.documents
      ⟨id, text, metadata⟩ (fun d hd => beq_eq_false_iff_ne.mpr (hfresh d hd))
      (by simp) 0
    simpa using this
  have hget : (addDocument st text id metadata).termFreqs[st.documents.length]? =
      some ⟨id, (addedTerms st text).foldl bumpCount [], addedTerms st text,
        (dedupFirst (addedTerms st text)).length, (addedTerms st text).length, metadata⟩ := by
    rw [addDocument_termFreqs, ← hlen]
    exact List.getElem?_concat_length _ _
  have hrem := removeDocument_found (addDocument st text id metadata) id
    st.documents.length _ hidx hget
  refine ⟨?_, ?_, ?_, ?_, ?_⟩
  · intro term
    rw [hrem]
    show mget ((dedupFirst (addedTerms st text)).foldl dropCount
      (addDocument st text id metadata).documentFreq) term = _
    rw [addDocument_documentFreq]
    exact bump_drop_restore (dedupFirst (addedTerms st text)) st.documentFreq
      (nodup_dedupFirst _) hwf hpos term
  · rw [hrem]
    show (addDocument st text id metadata).documents.eraseIdx st.documents.length = _
    rw [addDocument_documents]
    exact eraseIdx_concat _ _
  · rw [hrem]
    show (addDocument st text id metadata).termFreqs.eraseIdx st.documents.length = _
    rw [addDocument_termFreqs, ← hlen]
    exact eraseIdx_concat _ _
  · rw [hrem]
    exact addDocument_globalTermFreq st text id metadata
  · rw [hrem]
    exact addDocument_totalTermCount st text id metadata

/-- C3 counterexample to the claim as stated: when the added document's id
already exists in the index (here id 0, present for the text `foo`),
`removeDocument` splices out the first matching document instead of the
newly added one, so the document frequency of the new document's term
`bar` is not restored to its pre-add value. -/
theorem add_remove_duplicate_id_counterexample :
    mget (removeDocument (addDocument (addDocument TFIDFState.empty "foo" 0 metaW)
        "bar" 0 metaW) 0).documentFreq "bar"
      ≠ mget (addDocument TFIDFState.empty "foo" 0 metaW).documentFreq "bar" := by
  decide

/-- Witness: the amended C3 statement applied to a concrete two-document
index and a fresh id. -/
theorem add_remove_restores_docFreq_witness :
    (∀ d ∈ (addDocument TFIDFState.empty "apple banana" 7 metaW).documents, d.id ≠ 9) ∧
    ∀ term, mget (removeDocument (addDocument
        (addDocument TFIDFState.empty "apple banana" 7 metaW) "banana cherry" 9 metaW)
        9).documentFreq term
      = mget (addDocument TFIDFState.empty "apple banana" 7 metaW).documentFreq term :=
  ⟨by decide,
    (add_remove_restores_docFreq (addDocument TFIDFState.empty "apple banana" 7 metaW)
      "banana cherry" 9 metaW (by decide) (by decide) (by decide) (by decide)).1⟩

/-! ## C10 — removeDocument on an unknown id is a no-op -/

/-- C10: when no stored document carries the requested id, `removeDocument`
returns the state unchanged — document list, term-frequency records,
document-frequency map, global term-frequency counter and total term count
included — so every subsequent `bm25` and `cosineSimilarity` result is
identical to the result before the call. -/
theorem remove_unknown_id_noop (st : TFIDFState) (id : Nat)
    (h : ∀ d ∈ st.documents, d.id ≠ id) :
    removeDocument st id = st ∧
    (∀ lg q d k1 b, bm25 lg (removeDocument st id) q d k1 b = bm25 lg st q d k1 b) ∧
    (∀ lg sqr a b, cosineSimilarity lg sqr (removeDocument st id) a b
      = cosineSimilarity lg sqr st a b) := by
  have hrm := removeDocument_not_found st id h
  exact ⟨hrm, fun lg q d k1 b => by rw [hrm], fun lg sqr a b => by rw [hrm]⟩

/-- Witness: removing the unknown id 5 from a concrete two-document index
leaves the state unchanged. -/
theorem remove_unknown_id_noop_witness :
    (∀ d ∈ stW.documents, d.id ≠ 5) ∧ removeDocument stW 5 = stW :=
  ⟨by decide, (remove_unknown_id_noop stW 5 (by decide)).1⟩

/-! ## C4 — serialization round-trip -/

/-- C4: for every well-formed index state, `deserialize` of `serialize`
restores the state exactly — documents, document-frequency map, global
term-frequency map, total term count and per-document term-frequency
records — so `bm25` and `cosineSimilarity` return the same results on the
round-tripped index as on the original, for every query, every document id
pair, and every interpretation of the abstract logarithm and square root. -/
theorem serialize_roundtrip_scores (st : TFIDFState) (hwf : StateWF st) :
    deserialize (serialize st) = st ∧
    (∀ lg q d k1 b, bm25 lg (deserialize (serialize st)) q d k1 b = bm25 lg st q d k1 b) ∧
    (∀ lg sqr a b, cosineSimilarity lg sqr (deserialize (serialize st)) a b
      = cosineSimilarity lg sqr st a b) := by
  obtain ⟨h1, h2, h3⟩ := hwf
  have heq : deserialize (serialize st) = st := by
    cases st with
    | mk documents documentFreq termFreqs globalTermFreq totalTermCount =>
      simp only [deserialize, serialize]
      rw [mapOfList_self documentFreq h1, mapOfList_self globalTermFreq h2]
      have hmap : ∀ tf ∈ termFreqs,
          (fun tf : TFRecord => { tf with termFreq := mapOfList tf.termFreq }) tf = tf := by
        intro tf htf
        cases tf with
        | mk id termFreq terms uniqueTerms totalTerms metadata =>
          have hm : mapOfList termFreq = termFreq := mapOfList_self termFreq (h3 _ htf)
          simp [hm]
      rw [List.map_congr_left hmap]
      simp
  exact ⟨heq, fun lg q d k1 b => by rw [heq], fun lg sqr a b => by rw [heq]⟩

/-- Witness: the round-trip equality on a concrete populated two-document
index. -/
theorem serialize_roundtrip_scores_witness :
    StateWF stW ∧ deserialize (serialize stW) = stW :=
  ⟨by decide, (serialize_roundtrip_scores stW (by decide)).1⟩

/-- Validation of the integer stop-word test: on exact arithmetic the
embedded comparison `10 * df > 4 * numDocs` coincides with the source's
floating comparison `df / numDocs > 0.4` whenever the corpus has at least
3 documents (below that the source returns false before dividing). -/
theorem isStopWord_matches_ratio (st : TFIDFState) (term : String)
    (h3 : 3 ≤ st.documents.length) :
    isStopWord st term = true ↔
      (((mget st.documentFreq term).getD 0 : ℚ) / (st.documents.length : ℚ) > 0.4) := by
  unfold isStopWord
  have hlt : ¬ st.documents.length < 3 := by omega
  have hN : (0:ℚ) < (st.documents.length : ℚ) := by
    exact_mod_cast Nat.lt_of_lt_of_le (by norm_num) h3
  simp only [if_neg hlt, decide_eq_true_eq, gt_iff_lt]
  rw [lt_div_iff₀ hN]
  constructor
  · intro h
    have h' : ((4 * st.documents.length : ℕ) : ℚ)
        < ((10 * (mget st.documentFreq term).getD 0 : ℕ) : ℚ) := by exact_mod_cast h
    push_cast at h'
    linarith
  · intro h
    have h' : ((4 * st.documents.length : ℕ) : ℚ)
        < ((10 * (mget st.documentFreq term).getD 0 : ℕ) : ℚ) := by
      push_cast
      linarith
    exact_mod_cast h'

/-! ## C1 — enrichment strength cap -/

/-- C1 (code bug): processing a relationship of strength 0.9 between two
tabs with identical entity and topic sets (Jaccard score 1) when the
semantic-similarity step yields no result, `enrichRelationshipsWithAI`
writes back strength 0.9 + 1 * 0.3 = 1.2 — strictly above 1 and different
from the claimed `min(existing + jaccard*0.3 + semantic*0.4, 1)`, because
the `Math.min(..., 1)` cap sits inside the `if (semanticAnalysis)` branch
only. The final conjunct shows the same relationship is capped at 1 when a
semantic result (score 0.5) is obtained. -/
theorem enrich_uncapped_without_semantics :
    enrichOutcomeStrength (enrichOne relC1 tabC1a tabC1b none) = 6/5 ∧
    1 < enrichOutcomeStrength (enrichOne relC1 tabC1a tabC1b none) ∧
    enrichOutcomeStrength (enrichOne relC1 tabC1a tabC1b none)
      ≠ min (relC1.strength + 1 * 0.3 + 0 * 0.4) 1 ∧
    enrichOutcomeStrength (enrichOne relC1 tabC1a tabC1b (some ⟨0.5, "similar", "ok"⟩)) = 1 := by
  refine ⟨?_, ?_, ?_, ?_⟩ <;>
    norm_num [enrichOne, enrichOutcomeStrength, relC1, tabC1a, tabC1b, loweredSet,
      jsToLower, dedupFirst, dedupFirstAux]

/-! ## C2 — relationship creation keyed by pair -/

/-- C2 (code bug): two `createBasicRelationships` calls for the same tab
pair — the second in reverse orientation — insert two separate records,
both at strength 0.3 with access count 1, instead of strengthening the
first to 0.4 with access count 2. The pair-existence check calls
`db.getRelationship(tab1.id, tab2.id)`, but that function `store.get`s the
relationships store by its primary key (the `rel_...` record id) and drops
the second argument, so the lookup at the key `tab_2_100` cannot find the
record stored under `rel_a`; the strengthen branch is unreachable. -/
theorem createBasicRelationships_duplicate_pair :
    ((createBasicRelationships tabsC2
        (createBasicRelationships tabsC2 [] 1 2 "navigation" "rel_a" 1000)
        2 1 "navigation" "rel_b" 2000).map
      (fun p => (p.1, p.2.tab1Id, p.2.tab2Id, p.2.accessCount))) =
      [("rel_a", "tab_1_100", "tab_2_100", 1), ("rel_b", "tab_2_100", "tab_1_100", 1)] ∧
    ((createBasicRelationships tabsC2
        (createBasicRelationships tabsC2 [] 1 2 "navigation" "rel_a" 1000)
        2 1 "navigation" "rel_b" 2000).map (fun p => p.2.strength)) = [0.3, 0.3] ∧
    getRelationship (createBasicRelationships tabsC2 [] 1 2 "navigation" "rel_a" 1000)
      "tab_2_100" = none :=
  ⟨by decide, rfl, by decide⟩

/-! ## C9 — relationship decay bounds -/

theorem decayStep_eq (now : ℤ) (rel : Relationship) :
    decayStep now rel =
      if oneWeekMs < now - rel.lastAccessedAt then
        (if decayedStrength now rel < 0.1 then none
         else some { rel with strength := decayedStrength now rel })
      else some rel := rfl

/-- C9: the decay sweep leaves every relationship accessed within the last
week untouched; an older relationship has its strength reduced by
`min(weeksInactive * 0.05, 0.3)` floored at 0 (never negative), is deleted
when the reduced strength falls below 0.1, and is otherwise persisted with
the reduced strength; consequently — provided every input strength is at
least 0.1, as every relationship the code creates or keeps is — every
relationship retained by the sweep has strength at least 0.1. -/
theorem relationship_decay_bounds (now : ℤ) (rels : List Relationship)
    (hfloor : ∀ rel ∈ rels, (0.1:ℚ) ≤ rel.strength) :
    (∀ rel ∈ rels, ¬ oneWeekMs < now - rel.lastAccessedAt → decayStep now rel = some rel) ∧
    (∀ rel ∈ rels, oneWeekMs < now - rel.lastAccessedAt →
      0 ≤ decayedStrength now rel ∧
      (decayedStrength now rel < 0.1 → decayStep now rel = none) ∧
      (0.1 ≤ decayedStrength now rel →
        decayStep now rel = some { rel with strength := decayedStrength now rel })) ∧
    (∀ rel' ∈ applyRelationshipDecay now rels, (0.1:ℚ) ≤ rel'.strength) := by
  refine ⟨?_, ?_, ?_⟩
  · intro rel _ h
    rw [decayStep_eq, if_neg h]
  · intro rel _ h
    refine ⟨le_max_right _ 0, ?_, ?_⟩
    · intro hlt
      rw [decayStep_eq, if_pos h, if_pos hlt]
    · intro hge
      rw [decayStep_eq, if_pos h, if_neg (not_lt.mpr hge)]
  · intro rel' hmem
    obtain ⟨rel, hrel, hstep⟩ := List.mem_filterMap.mp hmem
    rw [decayStep_eq] at hstep
    by_cases h : oneWeekMs < now - rel.lastAccessedAt
    · rw [if_pos h] at hstep
      by_cases hlt : decayedStrength now rel < 0.1
      · rw [if_pos hlt] at hstep
        cases hstep
      · rw [if_neg hlt] at hstep
        have : rel' = { rel with strength := decayedStrength now rel } :=
          (Option.some.injEq _ _ ▸ hstep).symm
        rw [this]
        exact not_lt.mp hlt
    · rw [if_neg h] at hstep
      have : rel' = rel := (Option.some.injEq _ _ ▸ hstep).symm
      rw [this]
      exact hfloor rel hrel

/-- Witness: the decay-bounds theorem applied to a two-relationship store
at sweep time 0 — one relationship two weeks old (decayed from 0.5 to 0.4
and retained), one freshly accessed (left untouched at 0.2). -/
theorem relationship_decay_bounds_witness :
    (∀ rel ∈ [relC9, relC9b], (0.1:ℚ) ≤ rel.strength) ∧
    (∀ rel' ∈ applyRelationshipDecay 0 [relC9, relC9b], (0.1:ℚ) ≤ rel'.strength) := by
  have hfloor : ∀ rel ∈ [relC9, relC9b], (0.1:ℚ) ≤ rel.strength := by
    intro rel hrel
    rcases List.mem_cons.mp hrel with rfl | hrel
    · norm_num [relC9]
    · rcases List.mem_singleton.mp hrel with rfl
      norm_num [relC9b]
  exact ⟨hfloor, (relationship_decay_bounds 0 [relC9, relC9b] hfloor).2.2⟩

/-! ## C5 — BM25 non-negativity, zero cases and per-term formula -/

theorem foldl_add_eq_sum (f : α → ℚ) (l : List α) :
    ∀ a : ℚ, l.foldl (fun s t => s + f t) a = a + (l.map f).sum := by
  induction l with
  | nil => intro a; simp
  | cons x rest ih =>
    intro a
    rw [List.foldl_cons, ih (a + f x)]
    simp [add_assoc]

theorem bm25_of_find_none (lg : ℚ → ℚ) (st : TFIDFState) (q : String) (docId : Nat)
    (k1 b : ℚ) (h : st.termFreqs.find? (fun d => d.id == docId) = none) :
    bm25 lg st q docId k1 b = 0 := by
  simp only [bm25, h]

theorem bm25_of_empty (lg : ℚ → ℚ) (st : TFIDFState) (q : String) (docId : Nat)
    (k1 b : ℚ) (doc : TFRecord)
    (hfind : st.termFreqs.find? (fun d => d.id == docId) = some doc)
    (h : st.documents.length = 0) :
    bm25 lg st q docId k1 b = 0 := by
  simp only [bm25, hfind, h, if_pos]

theorem bm25_of_find_some (lg : ℚ → ℚ) (st : TFIDFState) (q : String) (docId : Nat)
    (k1 b : ℚ) (doc : TFRecord)
    (hfind : st.termFreqs.find? (fun d => d.id == docId) = some doc)
    (hN : st.documents.length ≠ 0) :
    bm25 lg st q docId k1 b =
      ((filterTerms st (tokenize q)).map
        (bm25Term lg st doc
          (((st.termFreqs.map TFRecord.totalTerms).sum : ℚ) / (st.documents.length : ℚ))
          k1 b)).sum := by
  simp only [bm25, hfind, if_neg hN]
  rw [foldl_add_eq_sum]
  simp

theorem bm25Term_nonneg (lg : ℚ → ℚ) (st : TFIDFState) (doc : TFRecord)
    (avg k1 b : ℚ) (term : String)
    (hlg : ∀ x : ℚ, 1 ≤ x → 0 ≤ lg x)
    (hdf : ∀ p ∈ st.documentFreq, p.2 ≤ st.documents.length)
    (hN : 1 ≤ st.documents.length)
    (havg : 0 ≤ avg) (hk1 : 0 < k1) (hb0 : 0 ≤ b) (hb1 : b ≤ 1) :
    0 ≤ bm25Term lg st doc avg k1 b term := by
  unfold bm25Term
  by_cases h0 : (mget doc.termFreq term).getD 0 = 0
  · simp [h0]
  · simp only [if_neg h0]
    have htfd : (1:ℚ) ≤ ((mget doc.termFreq term).getD 0 : ℚ) := by
      exact_mod_cast Nat.one_le_iff_ne_zero.mpr h0
    have hNq : (1:ℚ) ≤ (st.documents.length : ℚ) := by exact_mod_cast hN
    set df0 := (mget st.documentFreq term).getD 0 with hdf0
    have hdf1 : (1:ℚ) ≤ (if df0 = 0 then (1:ℚ) else (df0:ℚ)) := by
      by_cases hz : df0 = 0
      · simp [hz]
      · simp only [if_neg hz]
        exact_mod_cast Nat.one_le_iff_ne_zero.mpr hz
    have hdfN : (if df0 = 0 then (1:ℚ) else (df0:ℚ)) ≤ (st.documents.length : ℚ) := by
      by_cases hz : df0 = 0
      · simp [hz, hNq]
      · simp only [if_neg hz]
        cases hm : mget st.documentFreq term with
        | none => rw [hdf0, hm] at hz; simp at hz
        | some v =>
          have hv : df0 = v := by rw [hdf0, hm]; rfl
          have := hdf (term, v) (mget_mem _ _ _ hm)
          rw [hv]
          exact_mod_cast this
    have hidf : 0 ≤ lg (((st.documents.length : ℚ) - (if df0 = 0 then (1:ℚ) else (df0:ℚ)) + 0.5)
        / ((if df0 = 0 then (1:ℚ) else (df0:ℚ)) + 0.5) + 1) := by
      apply hlg
      have hnum : 0 ≤ (st.documents.length : ℚ) - (if df0 = 0 then (1:ℚ) else (df0:ℚ)) + 0.5 := by
        linarith
      have hden : 0 < (if df0 = 0 then (1:ℚ) else (df0:ℚ)) + 0.5 := by linarith
      have := div_nonneg hnum (le_of_lt hden)
      linarith
    have hfrac : 0 ≤ ((mget doc.termFreq term).getD 0 : ℚ) * (k1 + 1)
        / (((mget doc.termFreq term).getD 0 : ℚ)
          + k1 * (1 - b + b * ((doc.totalTerms : ℚ) / avg))) := by
      apply div_nonneg
      · apply mul_nonneg (by linarith) (by linarith)
      · have hdl : (0:ℚ) ≤ (doc.totalTerms : ℚ) / avg :=
          div_nonneg (by exact_mod_cast Nat.zero_le _) havg
        have hinner : 0 ≤ 1 - b + b * ((doc.totalTerms : ℚ) / avg) := by
          have := mul_nonneg hb0 hdl
          linarith
        have := mul_nonneg (le_of_lt hk1) hinner
        linarith
    exact mul_nonneg hidf hfrac

/-- C5: for every index state whose document frequencies do not exceed the
corpus size (as bookkeeping guarantees), every interpretation of the
logarithm that is non-negative on arguments at least 1 (as the natural
logarithm is), every query text, document id and parameters k1 > 0,
0 ≤ b ≤ 1: the BM25 score is non-negative; it is 0 when the document id is
unknown, when the corpus is empty, and when no surviving filtered query
term occurs in the document's term-frequency map; and otherwise it is
exactly the sum over the surviving query terms of
`idf * (tf*(k1+1)) / (tf + k1*(1 - b + b*(docLen/avgDocLen)))` with
`idf = lg((N - df + 0.5)/(df + 0.5) + 1)` — the shape of `bm25Term`. -/
theorem bm25_nonneg_zero_cases_formula (st : TFIDFState) (lg : ℚ → ℚ)
    (q : String) (docId : Nat) (k1 b : ℚ)
    (hlg : ∀ x : ℚ, 1 ≤ x → 0 ≤ lg x)
    (hdf : ∀ p ∈ st.documentFreq, p.2 ≤ st.documents.length)
    (hk1 : 0 < k1) (hb0 : 0 ≤ b) (hb1 : b ≤ 1) :
    0 ≤ bm25 lg st q docId k1 b ∧
    (st.termFreqs.find? (fun d => d.id == docId) = none → bm25 lg st q docId k1 b = 0) ∧
    (st.documents = [] → bm25 lg st q docId k1 b = 0) ∧
    (∀ doc, st.termFreqs.find? (fun d => d.id == docId) = some doc →
      ((∀ t ∈ filterTerms st (tokenize q), (mget doc.termFreq t).getD 0 = 0) →
        bm25 lg st q docId k1 b = 0) ∧
      (st.documents.length ≠ 0 →
        bm25 lg st q docId k1 b =
          ((filterTerms st (tokenize q)).map
            (bm25Term lg st doc
              (((st.termFreqs.map TFRecord.totalTerms).sum : ℚ) / (st.documents.length : ℚ))
              k1 b)).sum)) := by
  cases hfind : st.termFreqs.find? (fun d => d.id == docId) with
  | none =>
    have h0 := bm25_of_find_none lg st q docId k1 b hfind
    refine ⟨by rw [h0], fun _ => h0, fun _ => h0, fun doc hdoc => ?_⟩
    exact Option.noConfusion hdoc
  | some doc =>
    by_cases hN : st.documents.length = 0
    · have h0 := bm25_of_empty lg st q docId k1 b doc hfind hN
      refine ⟨by rw [h0], fun hnone => ?_, fun _ => h0, fun doc' hdoc' => ?_⟩
      · exact Option.noConfusion hnone
      · exact ⟨fun _ => h0, fun hne => absurd hN hne⟩
    · have hsum := bm25_of_find_some lg st q docId k1 b doc hfind hN
      have havg : 0 ≤ ((st.termFreqs.map TFRecord.totalTerms).sum : ℚ) / (st.documents.length : ℚ) := by
        apply div_nonneg
        · exact_mod_cast Nat.zero_le _
        · exact_mod_cast Nat.zero_le _
      have hN1 : 1 ≤ st.documents.length := Nat.one_le_iff_ne_zero.mpr hN
      have hnonneg : 0 ≤ bm25 lg st q docId k1 b := by
        rw [hsum]
        apply List.sum_nonneg
        intro x hx
        obtain ⟨t, _, rfl⟩ := List.mem_map.mp hx
        exact bm25Term_nonneg lg st doc _ k1 b t hlg hdf hN1 havg hk1 hb0 hb1
      refine ⟨hnonneg, fun hnone => ?_, fun hnil => ?_, fun doc' hdoc' => ?_⟩
      · exact Option.noConfusion hnone
      · exact absurd (by rw [hnil]; rfl) hN
      · have hdd : doc' = doc := by
          injection hdoc' with h
          exact h.symm
        subst hdd
        refine ⟨fun hzero => ?_, fun _ => hsum⟩
        rw [hsum]
        apply List.sum_eq_zero
        intro x hx
        obtain ⟨t, ht, rfl⟩ := List.mem_map.mp hx
        unfold bm25Term
        rw [hzero t ht]
        simp

/-- Witness: non-negativity of BM25 on a concrete two-document index with
the query `banana`, the zero logarithm (non-negative on arguments at least
1), and the source's default parameters k1 = 1.5, b = 0.75. -/
theorem bm25_nonneg_witness :
    (∀ p ∈ stW.documentFreq, p.2 ≤ stW.documents.length) ∧
    0 ≤ bm25 (fun _ => 0) stW "banana" 1 (3/2) (3/4) :=
  ⟨by decide,
    (bm25_nonneg_zero_cases_formula stW (fun _ => 0) "banana" 1 (3/2) (3/4)
      (fun x _ => le_refl 0) (by decide) (by norm_num) (by norm_num) (by norm_num)).1⟩

/-! ## Lemmas about the stable sort -/

theorem insertOrdered_perm (le : α → α → Bool) (a : α) (l : List α) :
    (insertOrdered le a l).Perm (a :: l) := by
  induction l with
  | nil => exact List.Perm.refl _
  | cons b rest ih =>
    by_cases h : le b a
    · rw [insertOrdered, if_pos h]
      exact (ih.cons b).trans (List.Perm.swap a b rest)
    · rw [insertOrdered, if_neg h]

theorem foldl_insertOrdered_perm (le : α → α → Bool) (l : List α) :
    ∀ acc : List α,
      (l.foldl (fun acc a => insertOrdered le a acc) acc).Perm (acc ++ l) := by
  induction l with
  | nil => intro acc; simp
  | cons a rest ih =>
    intro acc
    rw [List.foldl_cons]
    refine (ih (insertOrdered le a acc)).trans ?_
    refine (List.Perm.append_right rest ((insertOrdered_perm le a acc))).trans ?_
    exact List.perm_middle.symm

theorem stableSort_perm (le : α → α → Bool) (l : List α) :
    (stableSort le l).Perm l := by
  unfold stableSort
  simpa using foldl_insertOrdered_perm le l []

theorem mem_insertOrdered (le : α → α → Bool) (a : α) (l : List α) (x : α) :
    x ∈ insertOrdered le a l ↔ x = a ∨ x ∈ l := by
  rw [(insertOrdered_perm le a l).mem_iff, List.mem_cons]

theorem insertOrdered_pairwise (le : α → α → Bool)
    (htrans : ∀ a b c, le a b = true → le b c = true → le a c = true)
    (htotal : ∀ a b, le a b = true ∨ le b a = true)
    (a : α) (l : List α) (hl : List.Pairwise (fun x y => le x y = true) l) :
    List.Pairwise (fun x y => le x y = true) (insertOrdered le a l) := by
  induction l with
  | nil => simp [insertOrdered]
  | cons b rest ih =>
    rw [List.pairwise_cons] at hl
    obtain ⟨hb, hrest⟩ := hl
    by_cases h : le b a
    · rw [insertOrdered, if_pos h]
      rw [List.pairwise_cons]
      refine ⟨?_, ih hrest⟩
      intro y hy
      rcases (mem_insertOrdered le a rest y).mp hy with rfl | hy
      · exact h
      · exact hb y hy
    · rw [insertOrdered, if_neg h]
      have hab : le a b = true := by
        rcases htotal a b with hab | hba
        · exact hab
        · exact absurd hba h
      rw [List.pairwise_cons]
      refine ⟨?_, List.pairwise_cons.mpr ⟨hb, hrest⟩⟩
      intro y hy
      rcases List.mem_cons.mp hy with rfl | hy
      · exact hab
      · exact htrans a b y hab (hb y hy)

theorem stableSort_pairwise (le : α → α → Bool)
    (htrans : ∀ a b c, le a b = true → le b c = true → le a c = true)
    (htotal : ∀ a b, le a b = true ∨ le b a = true) (l : List α) :
    List.Pairwise (fun x y => le x y = true) (stableSort le l) := by
  unfold stableSort
  suffices h : ∀ acc, List.Pairwise (fun x y => le x y = true) acc →
      List.Pairwise (fun x y => le x y = true)
        (l.foldl (fun acc a => insertOrdered le a acc) acc) by
    exact h [] (List.Pairwise.nil)
  induction l with
  | nil => intro acc hacc; exact hacc
  | cons a rest ih =>
    intro acc hacc
    rw [List.foldl_cons]
    exact ih (insertOrdered le a acc) (insertOrdered_pairwise le htrans htotal a acc hacc)

/-! ## Lemmas about the workflow grouping -/

theorem groupStep_freq (m : JsMap String GroupData) (seq : NavSequence) (k : String) :
    groupFreq (groupStep m seq) k =
      if seqKey seq = k then groupFreq m k + 1 else groupFreq m k := by
  unfold groupStep
  cases hm : mget m (seqKey seq) with
  | some e =>
    simp only [hm, Option.isSome_some, if_pos]
    by_cases hk : seqKey seq = k
    · subst hk
      unfold groupFreq
      rw [mget_mset_self, hm]
      simp
    · unfold groupFreq
      rw [mget_mset_ne _ _ _ k (fun h => hk h.symm)]
      simp [hk]
  | none =>
    simp only [hm, Option.isSome_none, Bool.false_eq_true, if_false]
    rw [mget_mset_self]
    by_cases hk : seqKey seq = k
    · subst hk
      unfold groupFreq
      rw [mget_mset_self, hm]
      simp
    · unfold groupFreq
      rw [mget_mset_ne _ _ _ k (fun h => hk h.symm),
        mget_mset_ne _ _ _ k (fun h => hk h.symm)]
      simp [hk]

theorem groupFold_freq (seqs : List NavSequence) (k : String) :
    ∀ m, groupFreq (seqs.foldl groupStep m) k =
      groupFreq m k + (seqs.filter (fun s => seqKey s == k)).length := by
  induction seqs with
  | nil => intro m; simp
  | cons s rest ih =>
    intro m
    rw [List.foldl_cons, ih (groupStep m s), groupStep_freq]
    by_cases hk : seqKey s = k
    · simp only [if_pos hk, List.filter_cons, beq_iff_eq, List.length_cons]
      omega
    · simp only [if_neg hk, List.filter_cons, beq_iff_eq]

theorem groupFold_inv (seqs : List NavSequence) :
    ∀ m, (∀ k e, mget m k = some e →
        String.intercalate "->" e.pattern = k ∧ 1 ≤ e.frequency) →
      ∀ k e, mget (seqs.foldl groupStep m) k = some e →
        String.intercalate "->" e.pattern = k ∧ 1 ≤ e.frequency := by
  induction seqs with
  | nil => intro m hm; exact hm
  | cons s rest ih =>
    intro m hm
    rw [List.foldl_cons]
    refine ih (groupStep m s) ?_
    intro k e he
    by_cases hk : seqKey s = k
    · subst hk
      cases hmg : mget m (seqKey s) with
      | some e₀ =>
        simp only [groupStep, hmg, Option.isSome_some, if_pos, mget_mset_self] at he
        injection he with he
        subst he
        exact ⟨(hm _ _ hmg).1, by simp⟩
      | none =>
        simp only [groupStep, hmg, Option.isSome_none, Bool.false_eq_true, if_false,
          mget_mset_self] at he
        injection he with he
        subst he
        exact ⟨rfl, by simp⟩
    · have hne : k ≠ seqKey s := fun h => hk h.symm
      cases hmg : mget m (seqKey s) with
      | some e₀ =>
        simp only [groupStep, hmg, Option.isSome_some, if_pos] at he
        rw [mget_mset_ne _ _ _ k hne] at he
        exact hm k e he
      | none =>
        simp only [groupStep, hmg, Option.isSome_none, Bool.false_eq_true, if_false,
          mget_mset_self] at he
        rw [mget_mset_ne _ _ _ k hne, mget_mset_ne _ _ _ k hne] at he
        exact hm k e he

theorem groupStep_wf (m : JsMap String GroupData) (seq : NavSequence)
    (h : MapWF m) : MapWF (groupStep m seq) := by
  unfold groupStep
  cases hm : mget m (seqKey seq) with
  | some e =>
    simp only [hm, Option.isSome_some, if_pos]
    exact mapWF_mset _ _ _ h
  | none =>
    simp only [hm, Option.isSome_none, Bool.false_eq_true, if_false]
    rw [mget_mset_self]
    exact mapWF_mset _ _ _ (mapWF_mset _ _ _ h)

theorem groupSequences_wf (seqs : List NavSequence) :
    MapWF (groupSequences seqs) := by
  unfold groupSequences
  suffices h : ∀ m, MapWF m → MapWF (seqs.foldl groupStep m) by
    exact h [] (by simp [MapWF, mkeys])
  induction seqs with
  | nil => intro m hm; exact hm
  | cons s rest ih =>
    intro m hm
    rw [List.foldl_cons]
    exact ih (groupStep m s) (groupStep_wf m s hm)

theorem groupSequences_inv (seqs : List NavSequence) (k : String) (e : GroupData)
    (he : mget (groupSequences seqs) k = some e) :
    String.intercalate "->" e.pattern = k ∧ 1 ≤ e.frequency :=
  groupFold_inv seqs [] (by intro k' e' h; cases h) k e he

theorem groupSequences_freq (seqs : List NavSequence) (k : String) :
    groupFreq (groupSequences seqs) k = (seqs.filter (fun s => seqKey s == k)).length := by
  unfold groupSequences
  rw [groupFold_freq]
  simp [groupFreq, mget]

theorem assignIds_mem (fresh : Nat → String) (ws : List Workflow) (w' : Workflow) :
    ∀ n, w' ∈ assignIds fresh n ws →
      ∃ w ∈ ws, w'.pattern = w.pattern ∧ w'.frequency = w.frequency ∧
        w'.confidence = w.confidence := by
  induction ws with
  | nil => intro n h; cases h
  | cons w rest ih =>
    intro n h
    rcases List.mem_cons.mp h with rfl | h
    · exact ⟨w, List.mem_cons_self w rest, rfl, rfl, rfl⟩
    · obtain ⟨w₀, hw₀, hs⟩ := ih (n + 1) h
      exact ⟨w₀, List.mem_cons_of_mem w hw₀, hs⟩

theorem assignIds_mem_of (fresh : Nat → String) (ws : List Workflow) (w : Workflow) :
    ∀ n, w ∈ ws →
      ∃ w' ∈ assignIds fresh n ws, w'.pattern = w.pattern ∧ w'.frequency = w.frequency ∧
        w'.confidence = w.confidence := by
  induction ws with
  | nil => intro n h; cases h
  | cons w₀ rest ih =>
    intro n h
    rcases List.mem_cons.mp h with rfl | h
    · exact ⟨{ w with id := fresh n }, List.mem_cons_self _ _, rfl, rfl, rfl⟩
    · obtain ⟨w', hw', hs⟩ := ih (n + 1) h
      exact ⟨w', List.mem_cons_of_mem _ hw', hs⟩

/-- Every workflow mined by `detectWorkflows` records the occurrence count
of its own URL chain as its frequency, was materialized only because that
count is at least 3, and carries confidence `min(frequency / 10, 1)`. -/
theorem detect_mem_spec (fresh : Nat → String) (events : List NavEvent) (w : Workflow)
    (hw : w ∈ detectWorkflows fresh events) :
    w.frequency = chainCount events (workflowKey w) ∧ 3 ≤ w.frequency ∧
    w.confidence = min ((w.frequency : ℚ) / 10) 1 := by
  unfold detectWorkflows at hw
  by_cases hseq : (extractSequences events 2 5).length = 0
  · rw [if_pos hseq] at hw
    cases hw
  · rw [if_neg hseq] at hw
    have hw' := (stableSort_perm _ _).mem_iff.mp hw
    obtain ⟨w₀, hw₀, hpat, hfreq, hconf⟩ := assignIds_mem fresh _ w 0 hw'
    obtain ⟨p, hp, hw₀p⟩ := List.mem_map.mp hw₀
    have hpf := List.mem_filter.mp hp
    have hwfm := groupSequences_wf (extractSequences events 2 5)
    have hget : mget (groupSequences (extractSequences events 2 5)) p.1 = some p.2 := by
      obtain ⟨k₀, e₀⟩ := p
      exact mget_of_mem_wf _ _ _ hpf.1 hwfm
    have hinv := groupSequences_inv _ _ _ hget
    have hkey : workflowKey w = p.1 := by
      unfold workflowKey
      rw [hpat, ← hw₀p]
      exact hinv.1
    have hfreq' : w.frequency = p.2.frequency := by
      rw [hfreq, ← hw₀p]
      rfl
    have hcnt : chainCount events p.1 = p.2.frequency := by
      unfold chainCount
      rw [← groupSequences_freq]
      unfold groupFreq
      rw [hget]
      rfl
    refine ⟨?_, ?_, ?_⟩
    · rw [hkey, hcnt, hfreq']
    · rw [hfreq']
      exact of_decide_eq_true hpf.2
    · rw [hconf, ← hw₀p, hfreq']
      rfl

/-- A chain observed exactly 3 times is materialized: some mined workflow
carries that chain with frequency 3. -/
theorem detect_mem_exists (fresh : Nat → String) (events : List NavEvent) (k : String)
    (h3 : chainCount events k = 3) :
    ∃ w ∈ detectWorkflows fresh events, workflowKey w = k ∧ w.frequency = 3 := by
  have hseq : ¬ (extractSequences events 2 5).length = 0 := by
    intro h0
    rw [List.length_eq_zero] at h0
    unfold chainCount at h3
    rw [h0] at h3
    simp at h3
  have hfreq : groupFreq (groupSequences (extractSequences events 2 5)) k = 3 := by
    rw [groupSequences_freq]
    exact h3
  cases hg : mget (groupSequences (extractSequences events 2 5)) k with
  | none =>
    unfold groupFreq at hfreq
    rw [hg] at hfreq
    simp at hfreq
  | some e =>
    have hef : e.frequency = 3 := by
      unfold groupFreq at hfreq
      rw [hg] at hfreq
      exact hfreq
    have hmem := mget_mem _ _ _ hg
    have hfil : (k, e) ∈ (groupSequences (extractSequences events 2 5)).filter
        (fun p => 3 ≤ p.2.frequency) := by
      refine List.mem_filter.mpr ⟨hmem, ?_⟩
      simp [hef]
    have hmk : mkWorkflow e ∈ ((groupSequences (extractSequences events 2 5)).filter
        (fun p => 3 ≤ p.2.frequency)).map (fun p => mkWorkflow p.2) :=
      List.mem_map_of_mem (fun p => mkWorkflow p.2) hfil
    obtain ⟨w', hw', hpat, hfreq', hconf⟩ := assignIds_mem_of fresh _ _ 0 hmk
    have hinv := groupSequences_inv _ _ _ hg
    refine ⟨w', ?_, ?_, ?_⟩
    · unfold detectWorkflows
      rw [if_neg hseq]
      exact (stableSort_perm _ _).mem_iff.mpr hw'
    · unfold workflowKey
      rw [hpat]
      exact hinv.1
    · rw [hfreq']
      exact hef

/-- C6: for every navigation-event log and chain key, a candidate-sequence
group observed exactly 2 times never appears among the mined workflow
patterns, a group observed exactly 3 times does appear (with frequency 3),
and every mined pattern's confidence is exactly `min(frequency / 10, 1)` —
regardless of the generated record ids. -/
theorem workflow_threshold_confidence (fresh : Nat → String) (events : List NavEvent)
    (k : String) :
    (chainCount events k = 2 → ∀ w ∈ detectWorkflows fresh events, workflowKey w ≠ k) ∧
    (chainCount events k = 3 →
      ∃ w ∈ detectWorkflows fresh events, workflowKey w = k ∧ w.frequency = 3) ∧
    (∀ w ∈ detectWorkflows fresh events, w.confidence = min ((w.frequency : ℚ) / 10) 1) := by
  refine ⟨?_, detect_mem_exists fresh events k, ?_⟩
  · intro h2 w hw hkey
    obtain ⟨hcnt, h3, _⟩ := detect_mem_spec fresh events w hw
    rw [hkey, h2] at hcnt
    omega
  · intro w hw
    exact (detect_mem_spec fresh events w hw).2.2

/-- Witness: on the concrete ten-event log, the chain `a->b` occurs 3
times and is mined with frequency 3, while the chain `c->d` occurs exactly
2 times and no mined workflow carries it. -/
theorem workflow_threshold_confidence_witness :
    (chainCount evC6 "a->b" = 3 ∧ chainCount evC6 "c->d" = 2) ∧
    (∃ w ∈ detectWorkflows (fun n => "wf") evC6, workflowKey w = "a->b" ∧ w.frequency = 3) ∧
    (∀ w ∈ detectWorkflows (fun n => "wf") evC6, workflowKey w ≠ "c->d") := by
  refine ⟨⟨by decide, by decide⟩, ?_, ?_⟩
  · exact (workflow_threshold_confidence (fun n => "wf") evC6 "a->b").2.1 (by decide)
  · exact (workflow_threshold_confidence (fun n => "wf") evC6 "c->d").1 (by decide)

/-! ## C7 — workflow storage across mining passes -/

theorem foldl_upsert_append (ws : List Workflow) :
    ∀ store : JsMap String Workflow,
      (ws.map Workflow.id).Nodup → (∀ w ∈ ws, mget store w.id = none) →
      ws.foldl upsertWorkflow store = store ++ ws.map (fun w => (w.id, w)) := by
  induction ws with
  | nil => intro store _ _; simp
  | cons w rest ih =>
    intro store hnd habs
    rw [List.map_cons, List.nodup_cons] at hnd
    have hset : upsertWorkflow store w = store ++ [(w.id, w)] :=
      mset_eq_append store w.id w (habs w (List.mem_cons_self w rest))
    rw [List.foldl_cons, hset,
      ih (store ++ [(w.id, w)]) hnd.2 ?_]
    · simp
    · intro w' hw'
      have hne : w'.id ≠ w.id := by
        intro he
        exact hnd.1 (he ▸ List.mem_map_of_mem Workflow.id hw')
      rw [mget_append_right store [(w.id, w)] w'.id
        (habs w' (List.mem_cons_of_mem w hw'))]
      simp [mget, Ne.symm hne]

/-- C7 counterexample to the claim as stated: mining the same six-event log
(three occurrences of the chain `a->b`) twice stores TWO workflow records
for that single chain — the save loop `put`s each mined workflow under a
freshly generated id (`workflow_${Date.now()}_${random}`), so the second
pass inserts new rows instead of replacing the pattern keyed by its URL
chain. -/
theorem mining_pass_duplicate_chain_counterexample :
    ((runMiningPass (fun _ => "wf_pass2") evC7
        (runMiningPass (fun _ => "wf_pass1") evC7 [])).map
      (fun p => workflowKey p.2)) = ["a->b", "a->b"] := by decide

/-- C7 (amended): a mining pass whose freshly generated ids are distinct
and absent from the store appends one record per mined workflow to the
workflows store — it replaces nothing, so re-mining duplicates each chain's
record rather than upserting by chain key — and the mined result list is
sorted by descending frequency. -/
theorem mining_pass_appends_sorted (fresh : Nat → String) (events : List NavEvent)
    (store : JsMap String Workflow)
    (hids : ((detectWorkflows fresh events).map Workflow.id).Nodup)
    (habsent : ∀ w ∈ detectWorkflows fresh events, mget store w.id = none) :
    runMiningPass fresh events store =
      store ++ (detectWorkflows fresh events).map (fun w => (w.id, w)) ∧
    List.Pairwise (fun a b => b.frequency ≤ a.frequency) (detectWorkflows fresh events) := by
  constructor
  · exact foldl_upsert_append (detectWorkflows fresh events) store hids habsent
  · unfold detectWorkflows
    by_cases hseq : (extractSequences events 2 5).length = 0
    · rw [if_pos hseq]
      exact List.Pairwise.nil
    · rw [if_neg hseq]
      have hp := stableSort_pairwise (fun a b : Workflow => decide (b.frequency ≤ a.frequency))
        (by
          intro a b c hab hbc
          have h1 := of_decide_eq_true hab
          have h2 := of_decide_eq_true hbc
          exact decide_eq_true (le_trans h2 h1))
        (by
          intro a b
          rcases Nat.le_total b.frequency a.frequency with h | h
          · exact Or.inl (decide_eq_true h)
          · exact Or.inr (decide_eq_true h))
        (assignIds fresh 0 (((groupSequences (extractSequences events 2 5)).filter
          (fun p => 3 ≤ p.2.frequency)).map (fun p => mkWorkflow p.2)))
      exact hp.imp (fun h => of_decide_eq_true h)

/-- Witness: the append behaviour on the concrete six-event log against an
empty store. -/
theorem mining_pass_appends_sorted_witness :
    ((detectWorkflows (fun _ => "wf1") evC7).map Workflow.id).Nodup ∧
    runMiningPass (fun _ => "wf1") evC7 [] =
      [] ++ (detectWorkflows (fun _ => "wf1") evC7).map (fun w => (w.id, w)) :=
  ⟨by decide,
    (mining_pass_appends_sorted (fun _ => "wf1") evC7 [] (by decide) (by decide)).1⟩

/-! ## C8 — deterministic final ordering of suggestions -/

theorem suggLE_eq_true_iff (a b : ScoredTab) : suggLE a b = true ↔ SuggRel a b := by
  unfold suggLE SuggRel
  exact decide_eq_true_iff

theorem suggRel_trans (a b c : ScoredTab) (hab : SuggRel a b) (hbc : SuggRel b c) :
    SuggRel a c := by
  unfold SuggRel at hab hbc ⊢
  rcases hab with hab | ⟨hab, hab'⟩
  · rcases hbc with hbc | ⟨hbc, _⟩
    · exact Or.inl (lt_trans hbc hab)
    · exact Or.inl (hbc ▸ hab)
  · rcases hbc with hbc | ⟨hbc, hbc'⟩
    · exact Or.inl (hab ▸ hbc)
    · exact Or.inr ⟨hab.trans hbc, le_trans hab' hbc'⟩

theorem suggRel_total (a b : ScoredTab) : SuggRel a b ∨ SuggRel b a := by
  unfold SuggRel
  rcases lt_trichotomy a.score b.score with h | h | h
  · exact Or.inr (Or.inl h)
  · rcases le_total a.id b.id with hid | hid
    · exact Or.inl (Or.inr ⟨h, hid⟩)
    · exact Or.inr (Or.inr ⟨h.symm, hid⟩)
  · exact Or.inl (Or.inl h)

theorem suggRel_antisymm (a b : ScoredTab) (hab : SuggRel a b) (hba : SuggRel b a) :
    a = b := by
  unfold SuggRel at hab hba
  rcases hab with hab | ⟨hab, hab'⟩
  · rcases hba with hba | ⟨hba, _⟩
    · exact absurd hab (lt_asymm hba)
    · exact absurd hab (hba ▸ lt_irrefl _)
  · rcases hba with hba | ⟨hba, hba'⟩
    · exact absurd hba (hab ▸ lt_irrefl _)
    · cases a with
      | mk aid ascore =>
        cases b with
        | mk bid bscore =>
          simp only at hab hab' hba'
          simp [le_antisymm hab' hba', hab]

theorem stableSort_suggLE_sorted (l : List ScoredTab) :
    List.Sorted SuggRel (stableSort suggLE l) := by
  have hp := stableSort_pairwise suggLE
    (by
      intro a b c hab hbc
      exact (suggLE_eq_true_iff a c).mpr
        (suggRel_trans a b c ((suggLE_eq_true_iff a b).mp hab)
          ((suggLE_eq_true_iff b c).mp hbc)))
    (by
      intro a b
      rcases suggRel_total a b with h | h
      · exact Or.inl ((suggLE_eq_true_iff a b).mpr h)
      · exact Or.inr ((suggLE_eq_true_iff b a).mpr h))
    l
  exact hp.imp (fun h => (suggLE_eq_true_iff _ _).mp h)

/-- C8: the final ranking step shared by `getHybridSuggestions` and
`getLiteSuggestions` sorts the scored candidates by descending composed
score with ties broken by ascending numeric tab id, truncates to the top
10, and is a function of the candidate set alone: any two arrangements of
the same scored candidates produce the identical ordered list, and the
lite and hybrid rankers agree. -/
theorem suggestion_ordering_deterministic (l l' : List ScoredTab) (hperm : l.Perm l') :
    List.Sorted SuggRel (hybridTopSuggestions l) ∧
    (hybridTopSuggestions l).length = min 10 l.length ∧
    (∀ w ∈ hybridTopSuggestions l, w ∈ l) ∧
    hybridTopSuggestions l = hybridTopSuggestions l' ∧
    liteTopSuggestions l = hybridTopSuggestions l := by
  refine ⟨?_, ?_, ?_, ?_, rfl⟩
  · exact List.Pairwise.sublist (List.take_sublist 10 _) (stableSort_suggLE_sorted l)
  · unfold hybridTopSuggestions
    rw [List.length_take, (stableSort_perm suggLE l).length_eq]
  · intro w hw
    have hmem := (List.take_sublist 10 _).subset hw
    exact (stableSort_perm suggLE l).mem_iff.mp hmem
  · unfold hybridTopSuggestions
    have hsort : stableSort suggLE l = stableSort suggLE l' := by
      haveI : IsAntisymm ScoredTab SuggRel := ⟨suggRel_antisymm⟩
      exact List.eq_of_perm_of_sorted
        (((stableSort_perm suggLE l).trans hperm).trans (stableSort_perm suggLE l').symm)
        (stableSort_suggLE_sorted l) (stableSort_suggLE_sorted l')
    rw [hsort]

/-- Witness: two arrangements of the same two zero-scored candidates
produce the identical ordered list (ascending ids 1, 2). -/
theorem suggestion_ordering_deterministic_witness :
    ([⟨2, 0⟩, ⟨1, 0⟩] : List ScoredTab).Perm [⟨1, 0⟩, ⟨2, 0⟩] ∧
    hybridTopSuggestions [⟨2, 0⟩, ⟨1, 0⟩] = hybridTopSuggestions [⟨1, 0⟩, ⟨2, 0⟩] := by
  have hperm : ([⟨2, 0⟩, ⟨1, 0⟩] : List ScoredTab).Perm [⟨1, 0⟩, ⟨2, 0⟩] :=
    List.Perm.swap (⟨1, 0⟩ : ScoredTab) (⟨2, 0⟩ : ScoredTab) []
  exact ⟨hperm,
    (suggestion_ordering_deterministic [⟨2, 0⟩, ⟨1, 0⟩] [⟨1, 0⟩, ⟨2, 0⟩] hperm).2.2.2.1⟩

end Tabyst
